import Mathlib

/-!
# Verification of the publication reconciliation / incremental deduplication core

Shallow embedding of the fuzzy-matching core of the `cv` repository:

* `scripts/compare_publications.py` — `PublicationComparator.normalize_title`,
  `similarity_score`, `find_matches`;
* `scripts/update_incremental.py` — `IncrementalUpdater.normalize_title`,
  `similarity_score`, `find_new_publications`, `merge_and_save`, and the
  confirmation gate in `main`.

Python strings are modelled as Lean `String`/`List Char`; `float` similarity
scores are modelled as exact rationals (`ℚ`), with the literals `0.85`, `0.65`
and `0.7` rendered as `17/20`, `13/20` and `7/10`; JSON dictionaries are
modelled as structures carrying the fields the code reads plus an `extra`
field for everything the code leaves untouched.
-/

namespace CV

/-! ## Python character predicates

`str.lower` is modelled on its ASCII fragment (`Char.toLower`); the regular
expression character class `[.,;:!?"\']` of `normalize_title` is `pyPunct`;
`\s` / `str.strip` whitespace is modelled by the ASCII whitespace characters
Python's `re` module matches with `\s` on ordinary text. -/

/-- The characters removed by the regex `re.sub(r'[.,;:!?"\']', '', title)`
in both `normalize_title` implementations: period, comma, semicolon, colon,
exclamation mark, question mark, straight double quote, straight single
quote.  (Note: no curly quotes appear in the character class.) -/
def pyPunct (c : Char) : Bool :=
  c == '.' || c == ',' || c == ';' || c == ':' || c == '!' || c == '?' ||
  c == '"' || c == '\''

/-- ASCII whitespace as matched by Python's `\s` and stripped by `str.strip`:
space, tab, newline, carriage return, vertical tab, form feed. -/
def isPySpace (c : Char) : Bool :=
  c == ' ' || c == '\t' || c == '\n' || c == '\r' ||
  c == '\x0b' || c == '\x0c'

/-- `re.sub(r'\s+', ' ', s)`: replace every maximal run of whitespace by a
single space character. -/
def collapseWs : List Char → List Char
  | [] => []
  | c :: cs =>
    if isPySpace c then ' ' :: collapseWs (cs.dropWhile isPySpace)
    else c :: collapseWs cs
termination_by l => l.length
decreasing_by
  · simp only [List.length_cons]
    exact Nat.lt_succ_of_le (List.dropWhile_sublist _).length_le
  · simp

/-- Remove trailing whitespace (the right half of `str.strip`). -/
def dropTrailingWs (l : List Char) : List Char :=
  l.rdropWhile isPySpace

/-- `str.strip()`: remove leading and trailing whitespace. -/
def stripWs (l : List Char) : List Char :=
  dropTrailingWs (l.dropWhile isPySpace)

/-- `normalize_title` as implemented identically in
`PublicationComparator.normalize_title` (compare_publications.py lines 41-57)
and `IncrementalUpdater.normalize_title` (update_incremental.py lines 50-56):
lowercase, delete the `pyPunct` characters, collapse whitespace runs to a
single space, strip. -/
def normalize_title (t : String) : String :=
  ⟨stripWs (collapseWs ((t.data.map Char.toLower).filter (fun c => !pyPunct c)))⟩

/-! ## Words view of collapse-and-strip

`stripWs (collapseWs l)` is the whitespace-separated words of `l` joined by
single spaces.  This normal form drives the idempotence proof (C9) and the
step-by-step refinement statement (C7). -/

/-- Split a character list into its maximal whitespace-free words, dropping
all whitespace. -/
def wordsOf : List Char → List (List Char)
  | [] => []
  | c :: cs =>
    if isPySpace c then wordsOf cs
    else (c :: cs.takeWhile (fun d => !isPySpace d)) ::
      wordsOf (cs.dropWhile (fun d => !isPySpace d))
termination_by l => l.length
decreasing_by
  · simp
  · simp only [List.length_cons]
    exact Nat.lt_succ_of_le (List.dropWhile_sublist _).length_le

/-- Join words with single spaces. -/
def unwords : List (List Char) → List Char
  | [] => []
  | [w] => w
  | w :: ws => w ++ ' ' :: unwords ws

theorem unwords_cons (w : List Char) (ws : List (List Char)) (h : ws ≠ []) :
    unwords (w :: ws) = w ++ ' ' :: unwords ws := by
  cases ws with
  | nil => exact absurd rfl h
  | cons x xs => rfl

theorem wordsOf_dropWhile_space (l : List Char) :
    wordsOf (l.dropWhile isPySpace) = wordsOf l := by
  induction l with
  | nil => rfl
  | cons c cs ih =>
    by_cases h : isPySpace c
    · rw [List.dropWhile_cons_of_pos h, ih]
      rw [wordsOf]
      simp [h]
    · rw [List.dropWhile_cons_of_neg h]

/-- Every word produced by `wordsOf` is nonempty and whitespace-free. -/
theorem wordsOf_words (l : List Char) :
    ∀ w ∈ wordsOf l, w ≠ [] ∧ ∀ c ∈ w, ¬ isPySpace c := by
  induction l using wordsOf.induct with
  | case1 => intro w hw; simp [wordsOf] at hw
  | case2 c cs h ih =>
    intro w hw
    rw [wordsOf, if_pos h] at hw
    exact ih w hw
  | case3 c cs h ih =>
    intro w hw
    rw [wordsOf, if_neg h] at hw
    rcases List.mem_cons.mp hw with hw | hw
    · subst hw
      refine ⟨by simp, ?_⟩
      intro d hd
      rcases List.mem_cons.mp hd with hd | hd
      · subst hd; exact fun hc => h hc
      · have := List.mem_takeWhile_imp hd
        simpa using this
    · exact ih w hw

/-- Characters of the words of `l` come from `l`. -/
theorem wordsOf_subset (l : List Char) :
    ∀ w ∈ wordsOf l, ∀ c ∈ w, c ∈ l := by
  induction l using wordsOf.induct with
  | case1 => intro w hw; simp [wordsOf] at hw
  | case2 c cs h ih =>
    intro w hw d hd
    rw [wordsOf, if_pos h] at hw
    exact List.mem_cons_of_mem _ (ih w hw d hd)
  | case3 c cs h ih =>
    intro w hw d hd
    rw [wordsOf, if_neg h] at hw
    rcases List.mem_cons.mp hw with hw | hw
    · subst hw
      rcases List.mem_cons.mp hd with hd | hd
      · subst hd; exact List.mem_cons_self _ _
      · exact List.mem_cons_of_mem _ ((List.takeWhile_sublist _).subset hd)
    · exact List.mem_cons_of_mem _
        ((List.dropWhile_sublist _).subset (ih w hw d hd))

theorem wordsOf_eq_nil_iff (l : List Char) :
    wordsOf l = [] ↔ ∀ c ∈ l, isPySpace c := by
  induction l using wordsOf.induct with
  | case1 => simp [wordsOf]
  | case2 c cs h ih =>
    rw [wordsOf, if_pos h]
    simp only [List.mem_cons]
    constructor
    · intro hw d hd
      rcases hd with hd | hd
      · subst hd; exact h
      · exact (ih.mp hw) d hd
    · intro hall
      exact ih.mpr fun d hd => hall d (Or.inr hd)
  | case3 c cs h ih =>
    rw [wordsOf, if_neg h]
    simp only [List.cons_ne_nil, false_iff, not_forall]
    exact ⟨c, List.mem_cons_self _ _, h⟩

theorem unwords_ne_nil (ws : List (List Char)) (hne : ws ≠ [])
    (hw : ∀ w ∈ ws, w ≠ []) : unwords ws ≠ [] := by
  cases ws with
  | nil => exact absurd rfl hne
  | cons w ws' =>
    cases ws' with
    | nil => exact hw w (List.mem_cons_self _ _)
    | cons x xs =>
      rw [unwords_cons _ _ (by simp)]
      simp only [ne_eq, List.append_eq_nil]
      intro hcon
      exact hw w (List.mem_cons_self _ _) hcon.1

theorem unwords_cons_cons (c : Char) (w : List Char) (ws : List (List Char)) :
    unwords ((c :: w) :: ws) = c :: unwords (w :: ws) := by
  cases ws with
  | nil => rfl
  | cons x xs =>
    rw [unwords_cons (c :: w) (x :: xs) (by simp),
      unwords_cons w (x :: xs) (by simp)]
    rfl

theorem head?_unwords (ws : List (List Char)) (hw : ∀ w ∈ ws, w ≠ []) :
    (unwords ws).head? = (ws.head?.getD []).head? := by
  cases ws with
  | nil => rfl
  | cons w ws' =>
    cases ws' with
    | nil => rfl
    | cons x xs =>
      rw [unwords_cons _ _ (by simp)]
      have hne : w ≠ [] := hw w (List.mem_cons_self _ _)
      cases w with
      | nil => exact absurd rfl hne
      | cons d w' => rfl

theorem getLast?_unwords (ws : List (List Char)) (hne : ws ≠ [])
    (hw : ∀ w ∈ ws, w ≠ []) :
    ∃ w, ws.getLast? = some w ∧ (unwords ws).getLast? = w.getLast? := by
  induction ws with
  | nil => exact absurd rfl hne
  | cons w ws' ih =>
    cases ws' with
    | nil => exact ⟨w, rfl, rfl⟩
    | cons x xs =>
      have hw' : ∀ v ∈ x :: xs, v ≠ [] := fun v hv => hw v (List.mem_cons_of_mem _ hv)
      obtain ⟨v, hv, hlast⟩ := ih (by simp) hw'
      have hvne : v ≠ [] := hw' v (List.mem_of_getLast?_eq_some hv)
      obtain ⟨dv, hdv⟩ : ∃ dv, v.getLast? = some dv := by
        cases hcase : v.getLast? with
        | none => exact absurd (List.getLast?_eq_none_iff.mp hcase) hvne
        | some d => exact ⟨d, rfl⟩
      refine ⟨v, ?_, ?_⟩
      · rw [List.getLast?_cons_cons]; exact hv
      · rw [unwords_cons w (x :: xs) (by simp), List.getLast?_append]
        have hu : unwords (x :: xs) ≠ [] := unwords_ne_nil _ (by simp) hw'
        cases hcaseu : unwords (x :: xs) with
        | nil => exact absurd hcaseu hu
        | cons d u' =>
          rw [hcaseu] at hlast
          rw [List.getLast?_cons_cons, hlast, hdv]
          simp

/-- Does the string end with whitespace? -/
def endsSpace (l : List Char) : Bool :=
  (l.getLast?.map isPySpace).getD false

/-- The single leading space `collapseWs` produces when the input starts with
whitespace. -/
def leadSp (l : List Char) : List Char :=
  if (l.head?.map isPySpace).getD false then [' '] else []

/-- The single trailing space `collapseWs` produces when the input ends with
whitespace after at least one word. -/
def trailSp (l : List Char) : List Char :=
  if (wordsOf l).isEmpty then [] else if endsSpace l then [' '] else []

theorem leadSp_dropWhile (l : List Char) : leadSp (l.dropWhile isPySpace) = [] := by
  have h := List.head?_dropWhile_not isPySpace l
  unfold leadSp
  cases hc : (l.dropWhile isPySpace).head? with
  | none => simp
  | some c =>
    rw [hc] at h
    simp [h]

theorem endsSpace_cons (c : Char) (cs : List Char) (h : cs ≠ []) :
    endsSpace (c :: cs) = endsSpace cs := by
  cases cs with
  | nil => exact absurd rfl h
  | cons d ds => unfold endsSpace; rw [List.getLast?_cons_cons]

theorem getLast?_dropWhile (p : Char → Bool) (l : List Char)
    (h : l.dropWhile p ≠ []) : l.getLast? = (l.dropWhile p).getLast? := by
  obtain ⟨t, ht⟩ := l.dropWhile_suffix p
  conv_lhs => rw [← ht]
  rw [List.getLast?_append]
  cases hc : (l.dropWhile p).getLast? with
  | none => exact absurd (List.getLast?_eq_none_iff.mp hc) h
  | some c => simp

theorem endsSpace_of_all_space (l : List Char) (hne : l ≠ [])
    (hall : ∀ c ∈ l, isPySpace c) : endsSpace l = true := by
  cases hc : l.getLast? with
  | none => exact absurd (List.getLast?_eq_none_iff.mp hc) hne
  | some c =>
    unfold endsSpace
    rw [hc]
    simp [hall c (List.mem_of_getLast?_eq_some hc)]

/-- `collapseWs` reconstructed from the words of the input: an optional single
leading space, the words joined by single spaces, and an optional single
trailing space. -/
theorem collapseWs_words : ∀ (l : List Char),
    collapseWs l = leadSp l ++ unwords (wordsOf l) ++ trailSp l := by
  suffices h : ∀ (n : Nat) (l : List Char), l.length ≤ n →
      collapseWs l = leadSp l ++ unwords (wordsOf l) ++ trailSp l from
    fun l => h l.length l le_rfl
  intro n
  induction n with
  | zero =>
    intro l hl
    have : l = [] := List.length_eq_zero.mp (Nat.le_zero.mp hl)
    subst this
    simp [collapseWs, leadSp, trailSp, wordsOf, unwords]
  | succ n ih =>
    intro l hl
    cases l with
    | nil => simp [collapseWs, leadSp, trailSp, wordsOf, unwords]
    | cons c cs =>
      cases hsp : isPySpace c with
      | true =>
        -- leading whitespace: collapse emits one ' ' and restarts after the run
        have hlen : (cs.dropWhile isPySpace).length ≤ n :=
          le_trans (List.dropWhile_sublist _).length_le
            (Nat.le_of_succ_le_succ (by simpa using hl))
        have hih := ih (cs.dropWhile isPySpace) hlen
        rw [collapseWs]
        simp only [hsp, if_true]
        rw [hih, leadSp_dropWhile, wordsOf_dropWhile_space]
        have hwords : wordsOf (c :: cs) = wordsOf cs := by
          rw [wordsOf]; simp [hsp]
        have hlead : leadSp (c :: cs) = [' '] := by simp [leadSp, hsp]
        rw [hwords, hlead]
        by_cases hwcs : wordsOf cs = []
        · have htr : trailSp (c :: cs) = [] := by
            simp [trailSp, hwords, hwcs]
          have htr' : trailSp (cs.dropWhile isPySpace) = [] := by
            simp [trailSp, wordsOf_dropWhile_space, hwcs]
          rw [htr, htr', hwcs]
          rfl
        · have hcsne : cs ≠ [] := by
            intro hc; rw [hc] at hwcs; exact hwcs (by rw [wordsOf])
          have hdne : cs.dropWhile isPySpace ≠ [] := by
            intro hc
            apply hwcs
            have h2 := wordsOf_dropWhile_space cs
            rw [hc] at h2
            rw [← h2, wordsOf]
          have hends : endsSpace (c :: cs) = endsSpace (cs.dropWhile isPySpace) := by
            rw [endsSpace_cons c cs hcsne]
            unfold endsSpace
            rw [getLast?_dropWhile isPySpace cs hdne]
          have htr : trailSp (c :: cs) = trailSp (cs.dropWhile isPySpace) := by
            simp only [trailSp, hwords, wordsOf_dropWhile_space, hends]
          rw [htr]
          simp
      | false =>
        cases cs with
        | nil =>
          rw [collapseWs]
          simp only [hsp]
          rw [collapseWs]
          have : wordsOf [c] = [[c]] := by rw [wordsOf]; simp [hsp, wordsOf]
          simp [leadSp, trailSp, endsSpace, this, hsp, unwords]
        | cons d cs' =>
          have hlen : (d :: cs').length ≤ n := Nat.le_of_succ_le_succ (by simpa using hl)
          have hih := ih (d :: cs') hlen
          rw [collapseWs]
          simp only [hsp, if_neg]
          rw [hih]
          cases hd : isPySpace d with
          | true =>
            -- word [c] followed by whitespace
            have hwords : wordsOf (c :: d :: cs') = [c] :: wordsOf (d :: cs') := by
              rw [wordsOf]
              simp [hsp, hd]
            have hlead : leadSp (c :: d :: cs') = [] := by simp [leadSp, hsp]
            have hleadcs : leadSp (d :: cs') = [' '] := by simp [leadSp, hd]
            rw [hwords, hlead, hleadcs]
            by_cases hwcs : wordsOf (d :: cs') = []
            · have hall : ∀ x ∈ d :: cs', isPySpace x := (wordsOf_eq_nil_iff _).mp hwcs
              have htr : trailSp (c :: d :: cs') = [' '] := by
                have hends : endsSpace (c :: d :: cs') = true := by
                  rw [endsSpace_cons c (d :: cs') (by simp)]
                  exact endsSpace_of_all_space _ (by simp) hall
                simp [trailSp, hwords, hwcs, hends]
              have htr' : trailSp (d :: cs') = [] := by simp [trailSp, hwcs]
              rw [htr, htr', hwcs]
              rfl
            · have hends : endsSpace (c :: d :: cs') = endsSpace (d :: cs') :=
                endsSpace_cons c (d :: cs') (by simp)
              have htr : trailSp (c :: d :: cs') = trailSp (d :: cs') := by
                simp only [trailSp, hwords, hends]
                cases hw : wordsOf (d :: cs') with
                | nil => exact absurd hw hwcs
                | cons w ws => simp
              rw [htr, unwords_cons [c] (wordsOf (d :: cs'))
                (fun hc => hwcs hc)]
              simp
          | false =>
            -- the word continues through both c and d
            have hwords : wordsOf (c :: d :: cs') =
                (c :: d :: cs'.takeWhile (fun x => !isPySpace x)) ::
                  wordsOf (cs'.dropWhile (fun x => !isPySpace x)) := by
              rw [wordsOf]
              simp [hsp, hd]
            have hwordscs : wordsOf (d :: cs') =
                (d :: cs'.takeWhile (fun x => !isPySpace x)) ::
                  wordsOf (cs'.dropWhile (fun x => !isPySpace x)) := by
              rw [wordsOf]
              simp [hd]
            have hlead : leadSp (c :: d :: cs') = [] := by simp [leadSp, hsp]
            have hleadcs : leadSp (d :: cs') = [] := by simp [leadSp, hd]
            have hends : endsSpace (c :: d :: cs') = endsSpace (d :: cs') :=
              endsSpace_cons c (d :: cs') (by simp)
            have htr : trailSp (c :: d :: cs') = trailSp (d :: cs') := by
              simp only [trailSp, hwords, hwordscs, hends]
              simp
            rw [hwords, hwordscs, hlead, hleadcs, htr]
            simp [unwords_cons_cons]

theorem dropTrailingWs_unwords (ws : List (List Char)) (hne : ws ≠ [])
    (good : ∀ w ∈ ws, w ≠ [] ∧ ∀ c ∈ w, ¬ isPySpace c) :
    dropTrailingWs (unwords ws) = unwords ws := by
  unfold dropTrailingWs
  rw [List.rdropWhile_eq_self_iff]
  intro hU
  obtain ⟨v, hv, hlast⟩ := getLast?_unwords ws hne (fun v hv => (good v hv).1)
  have hgl : (unwords ws).getLast? = some ((unwords ws).getLast hU) :=
    List.getLast?_eq_getLast _ hU
  rw [hlast] at hgl
  have hmem : (unwords ws).getLast hU ∈ v := List.mem_of_getLast?_eq_some hgl
  exact (good v (List.mem_of_getLast?_eq_some hv)).2 _ hmem

theorem dropTrailingWs_concat_space (X : List Char) :
    dropTrailingWs (X ++ [' ']) = dropTrailingWs X := by
  unfold dropTrailingWs
  exact List.rdropWhile_concat_pos isPySpace X ' ' (by decide)

/-- The composition `strip ∘ collapse` equals joining the whitespace-separated
words with single spaces. -/
theorem stripWs_collapseWs (l : List Char) :
    stripWs (collapseWs l) = unwords (wordsOf l) := by
  have hlead : leadSp l = [] ∨ leadSp l = [' '] := by
    unfold leadSp; split
    · exact Or.inr rfl
    · exact Or.inl rfl
  have htrail : trailSp l = [] ∨ trailSp l = [' '] := by
    unfold trailSp; split
    · exact Or.inl rfl
    · split
      · exact Or.inr rfl
      · exact Or.inl rfl
  rw [collapseWs_words]
  unfold stripWs
  cases hW : wordsOf l with
  | nil =>
    have htr : trailSp l = [] := by simp [trailSp, hW]
    rw [htr]
    rcases hlead with h | h <;> rw [h] <;> decide
  | cons w ws =>
    have good : ∀ v ∈ w :: ws, v ≠ [] ∧ ∀ c ∈ v, ¬ isPySpace c := by
      rw [← hW]; exact wordsOf_words l
    obtain ⟨c, w', rfl⟩ : ∃ c w', w = c :: w' := by
      cases w with
      | nil => exact absurd rfl (good [] (List.mem_cons_self _ _)).1
      | cons c w' => exact ⟨c, w', rfl⟩
    have hc : ¬ isPySpace c :=
      (good _ (List.mem_cons_self _ _)).2 c (List.mem_cons_self _ _)
    have hpos : isPySpace ' ' = true := by decide
    rw [unwords_cons_cons]
    have hstep : (leadSp l ++ (c :: unwords (w' :: ws)) ++ trailSp l).dropWhile isPySpace
        = c :: (unwords (w' :: ws) ++ trailSp l) := by
      rcases hlead with h | h <;>
        simp only [h, List.nil_append, List.singleton_append, List.append_assoc,
          List.cons_append]
      · exact List.dropWhile_cons_of_neg hc
      · rw [List.dropWhile_cons_of_pos hpos]
        exact List.dropWhile_cons_of_neg hc
    rw [hstep]
    have hgood2 := dropTrailingWs_unwords ((c :: w') :: ws) (by simp) good
    rw [unwords_cons_cons] at hgood2
    rcases htrail with h | h <;> rw [h]
    · rw [List.append_nil]
      exact hgood2
    · rw [show c :: (unwords (w' :: ws) ++ [' ']) =
        (c :: unwords (w' :: ws)) ++ [' '] from rfl]
      rw [dropTrailingWs_concat_space]
      exact hgood2

/-! ## Round trip: words of a joined word list -/

theorem wordsOf_word_append (w : List Char) (hne : w ≠ [])
    (hns : ∀ c ∈ w, ¬ isPySpace c) (l : List Char) :
    wordsOf (w ++ l) = (w ++ l.takeWhile (fun d => !isPySpace d)) ::
      wordsOf (l.dropWhile (fun d => !isPySpace d)) := by
  induction w with
  | nil => exact absurd rfl hne
  | cons c w' ih =>
    have hc : ¬ isPySpace c := hns c (List.mem_cons_self _ _)
    cases w' with
    | nil =>
      rw [List.cons_append, List.nil_append, wordsOf, if_neg hc]
      rfl
    | cons d w'' =>
      have hns' : ∀ x ∈ d :: w'', ¬ isPySpace x :=
        fun x hx => hns x (List.mem_cons_of_mem _ hx)
      have hpos : ∀ x ∈ d :: w'', (fun y => !isPySpace y) x = true := by
        intro x hx
        simp [hns' x hx]
      rw [List.cons_append, wordsOf, if_neg hc,
        List.takeWhile_append_of_pos hpos, List.dropWhile_append_of_pos hpos]
      simp

theorem wordsOf_unwords (ws : List (List Char))
    (good : ∀ w ∈ ws, w ≠ [] ∧ ∀ c ∈ w, ¬ isPySpace c) :
    wordsOf (unwords ws) = ws := by
  induction ws with
  | nil => rw [unwords]; rw [wordsOf]
  | cons w ws' ih =>
    have hw := good w (List.mem_cons_self _ _)
    cases ws' with
    | nil =>
      show wordsOf (unwords [w]) = [w]
      rw [show unwords [w] = w ++ [] from (List.append_nil w).symm ▸ rfl]
      rw [wordsOf_word_append w hw.1 hw.2 []]
      simp [wordsOf]
    | cons x xs =>
      rw [unwords_cons w (x :: xs) (by simp),
        wordsOf_word_append w hw.1 hw.2 (' ' :: unwords (x :: xs)),
        List.takeWhile_cons_of_neg (by simp; decide),
        List.dropWhile_cons_of_neg (by simp; decide),
        List.append_nil]
      have hsp : wordsOf (' ' :: unwords (x :: xs)) = wordsOf (unwords (x :: xs)) := by
        rw [wordsOf]
        simp [show isPySpace ' ' = true from by decide]
      rw [hsp, ih (fun v hv => good v (List.mem_cons_of_mem _ hv))]

/-! ## Lowercase stability -/

theorem toNat_ofNat_valid (n : Nat) (h : n.isValidChar) :
    (Char.ofNat n).toNat = n := by
  rw [Char.ofNat, dif_pos h]
  rfl

theorem toLower_toLower (c : Char) : c.toLower.toLower = c.toLower := by
  by_cases h : c.toNat ≥ 65 ∧ c.toNat ≤ 90
  · have h1 : c.toLower = Char.ofNat (c.toNat + 32) := by
      simp only [Char.toLower]
      rw [if_pos h]
    have h2 : (Char.ofNat (c.toNat + 32)).toNat = c.toNat + 32 :=
      toNat_ofNat_valid _ (Or.inl (by omega))
    rw [h1]
    simp only [Char.toLower]
    rw [if_neg (by rw [h2]; omega)]
  · have h1 : c.toLower = c := by
      simp only [Char.toLower]
      rw [if_neg h]
    rw [h1]
    exact h1

theorem mem_unwords (ws : List (List Char)) (c : Char) (h : c ∈ unwords ws) :
    c = ' ' ∨ ∃ w ∈ ws, c ∈ w := by
  induction ws with
  | nil => rw [unwords] at h; simp at h
  | cons w ws' ih =>
    cases ws' with
    | nil => exact Or.inr ⟨w, by simp, h⟩
    | cons x xs =>
      rw [unwords_cons w (x :: xs) (by simp)] at h
      rcases List.mem_append.mp h with h | h
      · exact Or.inr ⟨w, by simp, h⟩
      · rcases List.mem_cons.mp h with h | h
        · exact Or.inl h
        · rcases ih h with h | ⟨v, hv, hcv⟩
          · exact Or.inl h
          · exact Or.inr ⟨v, List.mem_cons_of_mem _ hv, hcv⟩

/-! ## Words normal form of the normalizer -/

/-- `normalize_title` in words normal form: lowercase, remove punctuation, and
join the whitespace-separated words with single spaces. -/
theorem normalize_title_words (t : String) :
    normalize_title t =
      ⟨unwords (wordsOf ((t.data.map Char.toLower).filter (fun c => !pyPunct c)))⟩ := by
  unfold normalize_title
  rw [stripWs_collapseWs]

theorem unwords_wordsOf_stable (X : List Char)
    (hlow : ∀ c ∈ X, c.toLower = c) (hpn : ∀ c ∈ X, pyPunct c = false) :
    ((unwords (wordsOf X)).map Char.toLower).filter (fun c => !pyPunct c) =
      unwords (wordsOf X) := by
  have hmem : ∀ c ∈ unwords (wordsOf X), c = ' ' ∨ c ∈ X := by
    intro c hc
    rcases mem_unwords _ c hc with h | ⟨w, hw, hcw⟩
    · exact Or.inl h
    · exact Or.inr (wordsOf_subset X w hw c hcw)
  have hmap : (unwords (wordsOf X)).map Char.toLower = unwords (wordsOf X) := by
    rw [show (unwords (wordsOf X)).map Char.toLower = (unwords (wordsOf X)).map id from
      List.map_congr_left ?_, List.map_id]
    intro c hc
    rcases hmem c hc with rfl | h
    · decide
    · exact hlow c h
  rw [hmap]
  rw [List.filter_eq_self]
  intro c hc
  rcases hmem c hc with rfl | h
  · decide
  · simp [hpn c h]

/-- `normalize_title` is idempotent. -/
theorem normalize_title_idem (t : String) :
    normalize_title (normalize_title t) = normalize_title t := by
  rw [normalize_title_words t]
  rw [normalize_title_words ⟨unwords (wordsOf ((t.data.map Char.toLower).filter
    (fun c => !pyPunct c)))⟩]
  show (⟨unwords (wordsOf (((unwords (wordsOf ((t.data.map Char.toLower).filter
      (fun c => !pyPunct c)))).map Char.toLower).filter (fun c => !pyPunct c)))⟩ : String) = _
  have hlow : ∀ c ∈ (t.data.map Char.toLower).filter (fun c => !pyPunct c),
      c.toLower = c := by
    intro c hc
    obtain ⟨c₀, _, rfl⟩ := List.mem_map.mp (List.mem_of_mem_filter hc)
    exact toLower_toLower c₀
  have hpn : ∀ c ∈ (t.data.map Char.toLower).filter (fun c => !pyPunct c),
      pyPunct c = false := by
    intro c hc
    have := (List.mem_filter.mp hc).2
    simpa using this
  rw [unwords_wordsOf_stable _ hlow hpn]
  rw [wordsOf_unwords _ (wordsOf_words _)]

/-! ## The spec's step-by-step normalizer (§4.1)

The spec describes `normalize` as: case-fold to lowercase; remove a fixed
punctuation set; collapse whitespace runs to a single space; trim.  By
`stripWs_collapseWs` the last two steps are joining the whitespace-separated
words with single spaces, so the spec pipeline is `specNormalize punct` for
the claimed punctuation set `punct`. -/

/-- The spec's normalization pipeline with an explicit punctuation set. -/
def specNormalize (punct : List Char) (t : String) : String :=
  ⟨unwords (wordsOf ((t.data.map Char.toLower).filter (fun c => !punct.contains c)))⟩

/-- The punctuation set named by the claim: period, comma, semicolon, colon,
exclamation mark, question mark, straight AND curly quotes. -/
def specPunctWithCurly : List Char :=
  ['.', ',', ';', ':', '!', '?', '"', '\'', '‘', '’', '“', '”']

/-- The punctuation set the code actually removes: straight quotes only. -/
def specPunctStraight : List Char :=
  ['.', ',', ';', ':', '!', '?', '"', '\'']

theorem pyPunct_eq_contains (c : Char) :
    pyPunct c = specPunctStraight.contains c := by
  simp [pyPunct, specPunctStraight, List.contains_cons, Bool.or_assoc,
    Bool.beq_eq_decide_eq]

/-! ## `difflib.SequenceMatcher(None, a, b).ratio()`

`similarity_score(str1, str2)` (identical in both scripts) returns
`SequenceMatcher(None, str1, str2).ratio()`.  The embedding follows CPython's
`difflib.py`:

* `__chain_b` builds `b2j` and, with `autojunk=True` and no junk function,
  deletes "popular" elements of `b` (`isPopular`);
* `find_longest_match` finds the longest chain of matches through non-popular
  `b` positions (`runLen`/`bestCore`; ties resolved to the smallest start in
  `a`, then in `b`, matching the scan order of the dynamic program), then
  extends it on both sides over raw equality (`extendL`/`extendR`; the junk
  set `bjunk` is empty since `isjunk is None`);
* `get_matching_blocks` recurses on both sides of each block; `matchTotal` is
  the total size of all matching blocks;
* `ratio` is `2*M/T`, or `1.0` when both sequences are empty. -/

/-- Autojunk: with `autojunk=True`, no junk function and `len(b) >= 200`,
elements occurring more than `len(b) // 100 + 1` times in `b` are removed
from `b2j`. -/
def isPopular (b : List Char) (c : Char) : Bool :=
  decide (200 ≤ b.length) && decide (b.length / 100 + 1 < b.count c)

/-- Position pair `(i, j)` continues a junk-free chain: both in range of the
lists, equal elements, and the `b` element is not popular. -/
def matchAt (a b : List Char) (bpop : Char → Bool) (i j : Nat) : Bool :=
  match a[i]?, b[j]? with
  | some x, some y => x == y && !bpop y
  | _, _ => false

/-- Raw element equality at a position pair (used by the extension phases,
where popular elements may participate). -/
def matchAtRaw (a b : List Char) (i j : Nat) : Bool :=
  match a[i]?, b[j]? with
  | some x, some y => x == y
  | _, _ => false

/-- Length of the junk-free matching run starting at `(i, j)` and staying
below `(ahi, bhi)` — the chain length `j2len` accumulates in
`find_longest_match`. -/
def runLen (a b : List Char) (bpop : Char → Bool) (ahi bhi : Nat) :
    Nat → Nat → Nat := fun i j =>
  if h : i < ahi ∧ j < bhi then
    if matchAt a b bpop i j then runLen a b bpop ahi bhi (i+1) (j+1) + 1 else 0
  else 0
termination_by i _ => ahi - i
decreasing_by omega

/-- All start pairs scanned by the dynamic program, in scan order:
`i` ascending over `[alo, ahi)`, then `j` ascending over `[blo, bhi)`. -/
def pairList (alo ahi blo bhi : Nat) : List (Nat × Nat) :=
  (List.range' alo (ahi - alo)).flatMap
    (fun i => (List.range' blo (bhi - blo)).map (fun j => (i, j)))

/-- One step of the best-block scan: a strictly longer run replaces the
current best, mirroring `if k > bestsize` in `find_longest_match`. -/
def bestStep (a b : List Char) (bpop : Char → Bool) (ahi bhi : Nat)
    (st : Nat × Nat × Nat) (p : Nat × Nat) : Nat × Nat × Nat :=
  if st.2.2 < runLen a b bpop ahi bhi p.1 p.2 then
    (p.1, p.2, runLen a b bpop ahi bhi p.1 p.2)
  else st

/-- Phase 1 of `find_longest_match`: the longest junk-free matching block,
ties broken towards the earliest start in `a` then in `b`; `(alo, blo, 0)`
when there is none. -/
def bestCore (a b : List Char) (bpop : Char → Bool) (alo ahi blo bhi : Nat) :
    Nat × Nat × Nat :=
  (pairList alo ahi blo bhi).foldl (bestStep a b bpop ahi bhi) (alo, blo, 0)

/-- Phase 2a: extend the block leftwards over raw equality. -/
def extendL (a b : List Char) (alo blo : Nat) :
    Nat × Nat × Nat → Nat × Nat × Nat := fun p =>
  if h : alo < p.1 ∧ blo < p.2.1 ∧ matchAtRaw a b (p.1 - 1) (p.2.1 - 1) then
    extendL a b alo blo (p.1 - 1, p.2.1 - 1, p.2.2 + 1)
  else p
termination_by p => p.1
decreasing_by omega

/-- Phase 2b: extend the block rightwards over raw equality. -/
def extendR (a b : List Char) (ahi bhi : Nat) :
    Nat × Nat × Nat → Nat × Nat × Nat := fun p =>
  if h : p.1 + p.2.2 < ahi ∧ p.2.1 + p.2.2 < bhi ∧
      matchAtRaw a b (p.1 + p.2.2) (p.2.1 + p.2.2) then
    extendR a b ahi bhi (p.1, p.2.1, p.2.2 + 1)
  else p
termination_by p => ahi - (p.1 + p.2.2)
decreasing_by omega

/-- `find_longest_match(alo, ahi, blo, bhi)` with no junk and autojunk
popularity `bpop`. -/
def find_longest_match (a b : List Char) (bpop : Char → Bool)
    (alo ahi blo bhi : Nat) : Nat × Nat × Nat :=
  extendR a b ahi bhi (extendL a b alo blo (bestCore a b bpop alo ahi blo bhi))

theorem mem_range1 {m s n : Nat} : m ∈ List.range' s n ↔ s ≤ m ∧ m < s + n := by
  rw [List.mem_range']
  constructor
  · rintro ⟨i, hi, rfl⟩; omega
  · intro h; exact ⟨m - s, by omega, by omega⟩

theorem mem_pairList {p : Nat × Nat} {alo ahi blo bhi : Nat} :
    p ∈ pairList alo ahi blo bhi ↔
      alo ≤ p.1 ∧ p.1 < ahi ∧ blo ≤ p.2 ∧ p.2 < bhi := by
  unfold pairList
  rw [List.mem_flatMap]
  constructor
  · rintro ⟨i, hi, hp⟩
    rw [List.mem_map] at hp
    obtain ⟨j, hj, rfl⟩ := hp
    rw [mem_range1] at hi hj
    exact ⟨hi.1, by omega, hj.1, by omega⟩
  · rintro ⟨h1, h2, h3, h4⟩
    refine ⟨p.1, mem_range1.mpr ⟨h1, by omega⟩, ?_⟩
    rw [List.mem_map]
    exact ⟨p.2, mem_range1.mpr ⟨h3, by omega⟩, rfl⟩

/-- Strict lexicographic order on start pairs: the scan order of the dynamic
program in `find_longest_match`. -/
def lexLt (q p : Nat × Nat) : Prop :=
  q.1 < p.1 ∨ (q.1 = p.1 ∧ q.2 < p.2)

theorem pairwise_lt_range1 (s n : Nat) :
    List.Pairwise (· < ·) (List.range' s n) := by
  induction n generalizing s with
  | zero => exact List.Pairwise.nil
  | succ n ih =>
    rw [List.range'_succ]
    exact List.Pairwise.cons (fun m hm => (mem_range1.mp hm).1) (ih (s+1))

theorem pairList_sorted (alo ahi blo bhi : Nat) :
    List.Pairwise lexLt (pairList alo ahi blo bhi) := by
  unfold pairList
  rw [List.pairwise_flatMap]
  constructor
  · intro i _
    rw [List.pairwise_map]
    exact (pairwise_lt_range1 blo (bhi - blo)).imp (fun h => Or.inr ⟨rfl, h⟩)
  · refine (pairwise_lt_range1 alo (ahi - alo)).imp ?_
    intro i i' hlt x hx y hy
    rw [List.mem_map] at hx hy
    obtain ⟨j, _, rfl⟩ := hx
    obtain ⟨j', _, rfl⟩ := hy
    exact Or.inl hlt

theorem runLen_le (a b : List Char) (bpop : Char → Bool) (ahi bhi : Nat) :
    ∀ i j, runLen a b bpop ahi bhi i j ≤ ahi - i ∧
      runLen a b bpop ahi bhi i j ≤ bhi - j := by
  intro i j
  induction i, j using runLen.induct a b bpop ahi bhi with
  | case1 i j h hm ih =>
    rw [runLen, dif_pos h, if_pos hm]
    omega
  | case2 i j h hm =>
    rw [runLen, dif_pos h, if_neg hm]
    omega
  | case3 i j h =>
    rw [runLen, dif_neg h]
    omega

/-- Well-formedness of a block relative to the search window: in-window start,
and for a nonempty block the whole block fits; an empty block sits at the
window origin (as `find_longest_match` initialises `besti, bestj, bestsize =
alo, blo, 0`). -/
def blockOk (alo ahi blo bhi : Nat) (p : Nat × Nat × Nat) : Prop :=
  alo ≤ p.1 ∧ blo ≤ p.2.1 ∧
    (p.2.2 ≠ 0 → p.1 + p.2.2 ≤ ahi ∧ p.2.1 + p.2.2 ≤ bhi) ∧
    (p.2.2 = 0 → p.1 = alo ∧ p.2.1 = blo)

theorem foldl_bestStep_blockOk (a b : List Char) (bpop : Char → Bool)
    (alo ahi blo bhi : Nat) :
    ∀ (ps : List (Nat × Nat)) (st : Nat × Nat × Nat),
      (∀ q ∈ ps, alo ≤ q.1 ∧ q.1 < ahi ∧ blo ≤ q.2 ∧ q.2 < bhi) →
      blockOk alo ahi blo bhi st →
      blockOk alo ahi blo bhi (ps.foldl (bestStep a b bpop ahi bhi) st) := by
  intro ps
  induction ps with
  | nil => intro st _ h; exact h
  | cons q ps ih =>
    intro st hmem hst
    rw [List.foldl_cons]
    refine ih _ (fun r hr => hmem r (List.mem_cons_of_mem _ hr)) ?_
    unfold bestStep
    split
    · next hlt =>
      obtain ⟨h1, h2, h3, h4⟩ := hmem q (List.mem_cons_self _ _)
      have hle := runLen_le a b bpop ahi bhi q.1 q.2
      refine ⟨h1, h3, fun _ =>
        ⟨show q.1 + runLen a b bpop ahi bhi q.1 q.2 ≤ ahi by omega,
         show q.2 + runLen a b bpop ahi bhi q.1 q.2 ≤ bhi by omega⟩,
        fun h0 => ?_⟩
      have h0' : runLen a b bpop ahi bhi q.1 q.2 = 0 := h0
      exact absurd hlt (by rw [h0']; omega)
    · exact hst

theorem bestCore_blockOk (a b : List Char) (bpop : Char → Bool)
    (alo ahi blo bhi : Nat) :
    blockOk alo ahi blo bhi (bestCore a b bpop alo ahi blo bhi) := by
  unfold bestCore
  refine foldl_bestStep_blockOk a b bpop alo ahi blo bhi _ _ ?_ ?_
  · intro q hq
    exact mem_pairList.mp hq
  · exact ⟨le_rfl, le_rfl, fun h => absurd rfl h, fun _ => ⟨rfl, rfl⟩⟩

theorem extendL_blockOk (a b : List Char) (alo blo ahi bhi : Nat) :
    ∀ p, blockOk alo ahi blo bhi p →
      blockOk alo ahi blo bhi (extendL a b alo blo p) := by
  intro p
  induction p using extendL.induct a b alo blo with
  | case1 p h ih =>
    intro hp
    obtain ⟨h1, h2, h3, h4⟩ := hp
    have hga := h.1
    have hgb := h.2.1
    rw [extendL, dif_pos h]
    apply ih
    by_cases hk : p.2.2 = 0
    · exact absurd (h4 hk).1 (by omega)
    · have hk3 := h3 hk
      refine ⟨show alo ≤ p.1 - 1 by omega, show blo ≤ p.2.1 - 1 by omega,
        fun _ => ⟨show p.1 - 1 + (p.2.2 + 1) ≤ ahi by omega,
                  show p.2.1 - 1 + (p.2.2 + 1) ≤ bhi by omega⟩,
        fun h0 => ?_⟩
      have h0' : p.2.2 + 1 = 0 := h0
      omega
  | case2 p h =>
    intro hp
    rw [extendL, dif_neg h]
    exact hp

theorem extendR_blockOk (a b : List Char) (alo blo ahi bhi : Nat) :
    ∀ p, blockOk alo ahi blo bhi p →
      blockOk alo ahi blo bhi (extendR a b ahi bhi p) := by
  intro p
  induction p using extendR.induct a b ahi bhi with
  | case1 p h ih =>
    intro hp
    obtain ⟨h1, h2, h3, h4⟩ := hp
    have hga := h.1
    have hgb := h.2.1
    rw [extendR, dif_pos h]
    apply ih
    refine ⟨h1, h2,
      fun _ => ⟨show p.1 + (p.2.2 + 1) ≤ ahi by omega,
                show p.2.1 + (p.2.2 + 1) ≤ bhi by omega⟩,
      fun h0 => ?_⟩
    have h0' : p.2.2 + 1 = 0 := h0
    omega
  | case2 p h =>
    intro hp
    rw [extendR, dif_neg h]
    exact hp

theorem flm_blockOk (a b : List Char) (bpop : Char → Bool)
    (alo ahi blo bhi : Nat) :
    blockOk alo ahi blo bhi (find_longest_match a b bpop alo ahi blo bhi) :=
  extendR_blockOk a b alo blo ahi bhi _
    (extendL_blockOk a b alo blo ahi bhi _
      (bestCore_blockOk a b bpop alo ahi blo bhi))

/-- Total length of all matching blocks found by `get_matching_blocks`
(recursing left and right of each longest match exactly as the queue-driven
loop in `difflib` does). -/
def matchTotal (a b : List Char) (bpop : Char → Bool)
    (alo ahi blo bhi : Nat) : Nat :=
  match hr : find_longest_match a b bpop alo ahi blo bhi with
  | (i, j, k) =>
    if hk : k = 0 then 0
    else
      k + (if hL : alo < i ∧ blo < j then matchTotal a b bpop alo i blo j else 0) +
        (if hR : i + k < ahi ∧ j + k < bhi then
          matchTotal a b bpop (i+k) ahi (j+k) bhi else 0)
termination_by (ahi - alo) + (bhi - blo)
decreasing_by
  · have hb := flm_blockOk a b bpop alo ahi blo bhi
    rw [hr] at hb
    obtain ⟨h1, h2, h3, _⟩ := hb
    have h1' : alo ≤ i := h1
    have h2' : blo ≤ j := h2
    have hkk : i + k ≤ ahi ∧ j + k ≤ bhi := h3 hk
    omega
  · have hb := flm_blockOk a b bpop alo ahi blo bhi
    rw [hr] at hb
    obtain ⟨h1, h2, h3, _⟩ := hb
    have h1' : alo ≤ i := h1
    have h2' : blo ≤ j := h2
    have hkk : i + k ≤ ahi ∧ j + k ≤ bhi := h3 hk
    omega

theorem matchTotal_le (a b : List Char) (bpop : Char → Bool) :
    ∀ alo ahi blo bhi,
      matchTotal a b bpop alo ahi blo bhi ≤ ahi - alo ∧
      matchTotal a b bpop alo ahi blo bhi ≤ bhi - blo := by
  intro alo ahi blo bhi
  induction alo, ahi, blo, bhi using matchTotal.induct a b bpop with
  | case1 alo ahi blo bhi i j hr =>
    rw [matchTotal]
    split
    next i' j' k' heq =>
      rw [hr] at heq
      obtain ⟨rfl, rfl, rfl⟩ : i = i' ∧ j = j' ∧ 0 = k' := by
        injection heq with ha hb
        injection hb with hb hc
        exact ⟨ha, hb, hc⟩
      rw [dif_pos rfl]
      omega
  | case2 alo ahi blo bhi i j k hr hk ihL ihR =>
    have hb := flm_blockOk a b bpop alo ahi blo bhi
    rw [hr] at hb
    obtain ⟨h1, h2, h3, _⟩ := hb
    have h1' : alo ≤ i := h1
    have h2' : blo ≤ j := h2
    have hkk : i + k ≤ ahi ∧ j + k ≤ bhi := h3 hk
    rw [matchTotal]
    split
    next i' j' k' heq =>
      rw [hr] at heq
      obtain ⟨rfl, rfl, rfl⟩ : i = i' ∧ j = j' ∧ k = k' := by
        injection heq with ha hb
        injection hb with hb hc
        exact ⟨ha, hb, hc⟩
      rw [dif_neg hk]
      by_cases hL : alo < i ∧ blo < j
      · have hIL := ihL hL
        rw [dif_pos hL]
        by_cases hR : i + k < ahi ∧ j + k < bhi
        · have hIR := ihR hR
          rw [dif_pos hR]
          omega
        · rw [dif_neg hR]
          omega
      · rw [dif_neg hL]
        by_cases hR : i + k < ahi ∧ j + k < bhi
        · have hIR := ihR hR
          rw [dif_pos hR]
          omega
        · rw [dif_neg hR]
          omega

/-- `SequenceMatcher(None, a, b).ratio()`: `2*M/T`, or `1.0` when `T = 0`
(`_calculate_ratio`). -/
def sequenceRatio (a b : List Char) : ℚ :=
  if a.length + b.length = 0 then 1
  else 2 * (matchTotal a b (isPopular b) 0 a.length 0 b.length : ℚ) /
    ((a.length : ℚ) + (b.length : ℚ))

/-- `similarity_score(str1, str2)` — implemented identically in
`PublicationComparator.similarity_score` (compare_publications.py lines
124-126) and `IncrementalUpdater.similarity_score` (update_incremental.py
lines 58-60): `SequenceMatcher(None, str1, str2).ratio()`. -/
def similarity_score (str1 str2 : String) : ℚ :=
  sequenceRatio str1.data str2.data

theorem sequenceRatio_nonneg (a b : List Char) : 0 ≤ sequenceRatio a b := by
  unfold sequenceRatio
  split
  · norm_num
  · positivity

theorem sequenceRatio_le_one (a b : List Char) : sequenceRatio a b ≤ 1 := by
  unfold sequenceRatio
  split
  · norm_num
  · next hT =>
    have hM := matchTotal_le a b (isPopular b) 0 a.length 0 b.length
    have hpos : (0 : ℚ) < (a.length : ℚ) + (b.length : ℚ) := by
      have : 0 < a.length + b.length := by omega
      push_cast
      exact_mod_cast this
    rw [div_le_one hpos]
    have h2 : 2 * matchTotal a b (isPopular b) 0 a.length 0 b.length ≤
        a.length + b.length := by omega
    push_cast
    exact_mod_cast h2

/-! ## `ratio` on identical inputs

On `(x, x)` the longest-match search always returns the full diagonal block
`(0, 0, |x|)`: the core phase returns a diagonal block (popularity is a
property of the element value, so an off-diagonal match mirrors onto an
earlier diagonal one), and the extension phases then sweep it out to the
whole string. -/

theorem matchAt_true {a b : List Char} {bpop : Char → Bool} {i j : Nat} :
    matchAt a b bpop i j = true ↔
      ∃ y, a[i]? = some y ∧ b[j]? = some y ∧ bpop y = false := by
  unfold matchAt
  cases ha : a[i]? with
  | none => simp
  | some xv =>
    cases hb : b[j]? with
    | none => simp
    | some yv =>
      simp only [Bool.and_eq_true, beq_iff_eq, Bool.not_eq_true']
      constructor
      · rintro ⟨rfl, h2⟩
        exact ⟨xv, rfl, rfl, h2⟩
      · rintro ⟨y, hy1, hy2, hy3⟩
        injection hy1 with hy1
        injection hy2 with hy2
        subst hy1
        subst hy2
        exact ⟨rfl, hy3⟩

theorem matchAtRaw_self (x : List Char) (i : Nat) (h : i < x.length) :
    matchAtRaw x x i i = true := by
  unfold matchAtRaw
  rw [List.getElem?_eq_getElem h]
  simp

/-- A junk-free run between positions of the *same* list is dominated by the
diagonal run at the smaller of the two positions. -/
theorem runLen_le_diag (x : List Char) (pop : Char → Bool) (n : Nat) :
    ∀ i j, runLen x x pop n n i j ≤
      runLen x x pop n n (min i j) (min i j) := by
  intro i j
  generalize hK : runLen x x pop n n i j = K
  induction K generalizing i j with
  | zero => exact Nat.zero_le _
  | succ K ih =>
    rw [runLen] at hK
    by_cases h : i < n ∧ j < n
    · rw [dif_pos h] at hK
      by_cases hm : matchAt x x pop i j = true
      · rw [if_pos hm] at hK
        have hK' : runLen x x pop n n (i+1) (j+1) = K := by omega
        obtain ⟨y, hy1, hy2, hy3⟩ := matchAt_true.mp hm
        have hrec := ih (i+1) (j+1) hK'
        have hmin : min (i+1) (j+1) = min i j + 1 := by omega
        rw [hmin] at hrec
        have hmn : min i j < n ∧ min i j < n := ⟨by omega, by omega⟩
        have hmAt : matchAt x x pop (min i j) (min i j) = true := by
          rcases Nat.le_total i j with hle | hle
          · have hmi : min i j = i := by omega
            rw [hmi]
            exact matchAt_true.mpr ⟨y, hy1, hy1, hy3⟩
          · have hmj : min i j = j := by omega
            rw [hmj]
            exact matchAt_true.mpr ⟨y, hy2, hy2, hy3⟩
        rw [runLen, dif_pos hmn, if_pos hmAt]
        omega
      · rw [if_neg hm] at hK
        omega
    · rw [dif_neg h] at hK
      omega

theorem lexLt_asymm {q p : Nat × Nat} (h : lexLt q p) : ¬ lexLt p q := by
  unfold lexLt at *
  omega

theorem bestCore_self_diag_aux (x : List Char) (pop : Char → Bool) (n : Nat) :
    ∀ (suf pre : List (Nat × Nat)),
      pairList 0 n 0 n = pre ++ suf →
      ∀ st : Nat × Nat × Nat,
      (∀ p ∈ pre, runLen x x pop n n p.1 p.2 ≤ st.2.2) →
      (st = (0, 0, 0) ∨ st.1 = st.2.1) →
      (∀ p ∈ pre ++ suf, runLen x x pop n n p.1 p.2 ≤
          (suf.foldl (bestStep x x pop n n) st).2.2) ∧
        ((suf.foldl (bestStep x x pop n n) st) = (0, 0, 0) ∨
          (suf.foldl (bestStep x x pop n n) st).1 =
            (suf.foldl (bestStep x x pop n n) st).2.1) := by
  intro suf
  induction suf with
  | nil =>
    intro pre hsplit st hpre hdiag
    rw [List.foldl_nil]
    rw [List.append_nil] at *
    exact ⟨hpre, hdiag⟩
  | cons q suf' ih =>
    intro pre hsplit st hpre hdiag
    rw [List.foldl_cons]
    by_cases hlt : st.2.2 < runLen x x pop n n q.1 q.2
    · have hstep : bestStep x x pop n n st q = (q.1, q.2, runLen x x pop n n q.1 q.2) := by
        unfold bestStep
        rw [if_pos hlt]
      have hqdiag : q.1 = q.2 := by
        by_contra hne
        have hqmem : q ∈ pairList 0 n 0 n := by
          rw [hsplit]
          exact List.mem_append_right _ (List.mem_cons_self _ _)
        obtain ⟨_, hq1, _, hq2⟩ := mem_pairList.mp hqmem
        have hmlt : min q.1 q.2 < n := by omega
        have hmmem : (min q.1 q.2, min q.1 q.2) ∈ pairList 0 n 0 n :=
          mem_pairList.mpr ⟨Nat.zero_le _, hmlt, Nat.zero_le _, hmlt⟩
        have hmlex : lexLt (min q.1 q.2, min q.1 q.2) q := by
          unfold lexLt
          rcases Nat.lt_or_ge q.1 q.2 with hlq | hlq
          · right
            constructor
            · show min q.1 q.2 = q.1
              omega
            · show min q.1 q.2 < q.2
              omega
          · left
            show min q.1 q.2 < q.1
            omega
        have hmpre : (min q.1 q.2, min q.1 q.2) ∈ pre := by
          rw [hsplit] at hmmem
          rcases List.mem_append.mp hmmem with h | h
          · exact h
          · rcases List.mem_cons.mp h with h | h
            · exfalso
              apply hne
              have h1 : min q.1 q.2 = q.1 := congrArg Prod.fst h
              have h2 : min q.1 q.2 = q.2 := congrArg Prod.snd h
              omega
            · exfalso
              have hsorted := pairList_sorted 0 n 0 n
              rw [hsplit] at hsorted
              have := (List.pairwise_append.mp hsorted).2.1
              have hq_lt := (List.pairwise_cons.mp this).1 _ h
              exact lexLt_asymm hmlex hq_lt
        have hrle : runLen x x pop n n (min q.1 q.2) (min q.1 q.2) ≤ st.2.2 :=
          hpre _ hmpre
        have hdom := runLen_le_diag x pop n q.1 q.2
        omega
      rw [hstep]
      have hassoc : pairList 0 n 0 n = (pre ++ [q]) ++ suf' := by
        rw [hsplit, List.append_assoc, List.singleton_append]
      have hres := ih (pre ++ [q]) hassoc (q.1, q.2, runLen x x pop n n q.1 q.2)
        (by
          intro p hp
          rcases List.mem_append.mp hp with h | h
          · have := hpre p h
            show runLen x x pop n n p.1 p.2 ≤ runLen x x pop n n q.1 q.2
            omega
          · rcases List.mem_cons.mp h with rfl | h
            · exact le_rfl
            · simp at h)
        (Or.inr hqdiag)
      refine ⟨?_, hres.2⟩
      intro p hp
      apply hres.1
      rw [List.append_assoc, List.singleton_append]
      exact hp
    · have hstep : bestStep x x pop n n st q = st := by
        unfold bestStep
        rw [if_neg hlt]
      rw [hstep]
      have hassoc : pairList 0 n 0 n = (pre ++ [q]) ++ suf' := by
        rw [hsplit, List.append_assoc, List.singleton_append]
      have hres := ih (pre ++ [q]) hassoc st
        (by
          intro p hp
          rcases List.mem_append.mp hp with h | h
          · exact hpre p h
          · rcases List.mem_cons.mp h with rfl | h
            · omega
            · simp at h)
        hdiag
      refine ⟨?_, hres.2⟩
      intro p hp
      apply hres.1
      rw [List.append_assoc, List.singleton_append]
      exact hp

theorem bestCore_self_diag (x : List Char) (pop : Char → Bool) (n : Nat) :
    bestCore x x pop 0 n 0 n = (0, 0, 0) ∨
      (bestCore x x pop 0 n 0 n).1 = (bestCore x x pop 0 n 0 n).2.1 := by
  have h := bestCore_self_diag_aux x pop n (pairList 0 n 0 n) []
    (by rw [List.nil_append]) (0, 0, 0) (by intro p hp; simp at hp) (Or.inl rfl)
  exact h.2

theorem extendL_self (x : List Char) :
    ∀ i, i ≤ x.length → ∀ k,
      extendL x x 0 0 (i, i, k) = (0, 0, k + i) := by
  intro i
  induction i with
  | zero =>
    intro _ k
    rw [extendL, dif_neg (by simp)]
    rfl
  | succ i ih =>
    intro hik k
    rw [extendL, dif_pos ?hc]
    case hc =>
      refine ⟨Nat.succ_pos i, Nat.succ_pos i, ?_⟩
      show matchAtRaw x x (i + 1 - 1) (i + 1 - 1) = true
      have : i + 1 - 1 = i := rfl
      rw [this]
      exact matchAtRaw_self x i (by omega)
    show extendL x x 0 0 (i, i, k + 1) = (0, 0, k + (i + 1))
    rw [ih (by omega) (k + 1)]
    have : k + 1 + i = k + (i + 1) := by omega
    rw [this]

theorem extendR_self (x : List Char) :
    ∀ d k, x.length - k ≤ d → k ≤ x.length →
      extendR x x x.length x.length (0, 0, k) = (0, 0, x.length) := by
  intro d
  induction d with
  | zero =>
    intro k hd hk
    have : k = x.length := by omega
    subst this
    rw [extendR, dif_neg (by simp)]
  | succ d ih =>
    intro k hd hk
    by_cases hlt : k < x.length
    · rw [extendR, dif_pos ?hc]
      case hc =>
        refine ⟨by simpa using hlt, by simpa using hlt, ?_⟩
        show matchAtRaw x x (0 + k) (0 + k) = true
        rw [Nat.zero_add]
        exact matchAtRaw_self x k hlt
      show extendR x x x.length x.length (0, 0, k + 1) = (0, 0, x.length)
      exact ih (k + 1) (by omega) (by omega)
    · have : k = x.length := by omega
      subst this
      rw [extendR, dif_neg (by simp)]

theorem flm_self (x : List Char) (pop : Char → Bool) :
    find_longest_match x x pop 0 x.length 0 x.length = (0, 0, x.length) := by
  unfold find_longest_match
  have hb := bestCore_blockOk x x pop 0 x.length 0 x.length
  rcases bestCore_self_diag x pop x.length with h | h
  · rw [h]
    have h0 : extendL x x 0 0 ((0:Nat), (0:Nat), (0:Nat)) = (0, 0, 0) := by
      have := extendL_self x 0 (Nat.zero_le _) 0
      simpa using this
    rw [h0]
    exact extendR_self x x.length 0 (by omega) (Nat.zero_le _)
  · obtain ⟨h1, h2, h3, h4⟩ := hb
    set st := bestCore x x pop 0 x.length 0 x.length with hst
    have hrepr : st = (st.1, st.1, st.2.2) := by
      nth_rewrite 2 [h]
      rfl
    by_cases hk : st.2.2 = 0
    · have hz := h4 hk
      have hzz : st = (0, 0, 0) := by
        rw [hrepr, hz.1, hk]
      rw [hzz]
      have h0 : extendL x x 0 0 ((0:Nat), (0:Nat), (0:Nat)) = (0, 0, 0) := by
        have := extendL_self x 0 (Nat.zero_le _) 0
        simpa using this
      rw [h0]
      exact extendR_self x x.length 0 (by omega) (Nat.zero_le _)
    · have hkk := h3 hk
      have hi : st.1 ≤ x.length := by omega
      rw [hrepr, extendL_self x st.1 hi st.2.2]
      exact extendR_self x x.length (st.2.2 + st.1) (by omega) (by omega)

theorem matchTotal_self (x : List Char) (pop : Char → Bool) :
    matchTotal x x pop 0 x.length 0 x.length = x.length := by
  rw [matchTotal]
  split
  next i j k heq =>
    rw [flm_self] at heq
    obtain ⟨rfl, rfl, rfl⟩ : (0 : Nat) = i ∧ (0 : Nat) = j ∧ x.length = k := by
      injection heq with ha hb
      injection hb with hb hc
      exact ⟨ha, hb, hc⟩
    by_cases hn : x.length = 0
    · rw [dif_pos hn]
      omega
    · rw [dif_neg hn, dif_neg (show ¬((0:Nat) < 0 ∧ (0:Nat) < 0) by omega),
        dif_neg (show ¬(0 + x.length < x.length ∧ 0 + x.length < x.length) by omega)]
      omega

/-- `ratio` on identical inputs is exactly `1` (for the empty string by the
`T = 0` convention). -/
theorem sequenceRatio_self (x : List Char) : sequenceRatio x x = 1 := by
  unfold sequenceRatio
  split
  · rfl
  · next hT =>
    rw [matchTotal_self]
    have hn : (0 : ℚ) < (x.length : ℚ) := by
      have : 0 < x.length := by omega
      exact_mod_cast this
    field_simp
    ring

/-! ## Year values and the merge sort key -/

/-- A JSON `year` field as the scripts can see it: absent, `null`, an
integer, or a string. -/
inductive YearVal where
  | absent
  | null
  | int (n : Int)
  | str (s : String)
deriving DecidableEq

/-- Python `str(pub.get('year', ''))` as used for the year-mismatch penalty:
an absent field defaults to `''`, `None` prints as `"None"`, integers print
decimally. -/
def pyStrYear : YearVal → String
  | .absent => ""
  | .null => "None"
  | .int n => toString n
  | .str s => s

/-- Tail of a Python integer-literal digit string: digits, with single
underscores allowed only between digits. -/
def pyDigitsTail : List Char → Bool
  | [] => true
  | '_' :: rest =>
    match rest with
    | [] => false
    | c :: rest' => c.isDigit && pyDigitsTail rest'
  | c :: rest => c.isDigit && pyDigitsTail rest

/-- A valid Python integer-literal digit body: nonempty, digit-led. -/
def pyDigitsOk : List Char → Bool
  | [] => false
  | c :: rest => c.isDigit && pyDigitsTail rest

/-- Model of Python `int(s)` on strings: surrounding whitespace and a single
leading sign are allowed around a digits-and-underscores body; anything else
raises `ValueError` (`none`). -/
def pyIntParse (s : String) : Option Int :=
  let t := stripWs s.data
  let signed : List Char × Int :=
    match t with
    | '+' :: rest => (rest, 1)
    | '-' :: rest => (rest, -1)
    | rest => (rest, 1)
  if pyDigitsOk signed.1 then
    some (signed.2 * ((signed.1.filter (fun c => !(c == '_'))).foldl
      (fun acc c => acc * 10 + ((c.toNat : Int) - 48)) 0))
  else none

/-- The sort key `int(x.get('year', 0) or 0)` used by the re-sort in
`merge_and_save` (update_incremental.py line 140).  Falsy values — an absent
field (default `0`), `None`, the integer `0`, the empty string — give key
`0`; any other integer is its own key; a non-empty string is passed to
`int(...)`, which raises `ValueError` (modelled as `none`) unless it is a
valid integer literal. -/
def mergeSortKey : YearVal → Option Int
  | .absent => some 0
  | .null => some 0
  | .int n => some n
  | .str s => if s = "" then some 0 else pyIntParse s

/-- A publication record as the deduplication and merge code reads it: the
`title` and `year` fields (each possibly absent from the dict), plus all
other key/value pairs, which the core never touches. -/
structure Pub where
  title : Option String := none
  year : YearVal := YearVal.absent
  extra : List (String × String) := []
deriving DecidableEq

/-- The re-sort in `merge_and_save`:
`all_pubs.sort(key=lambda x: int(x.get('year', 0) or 0), reverse=True)` — a
stable sort by integer year key, descending; a `ValueError` raised by the
key function aborts with `Except.error`. -/
def sortPubs (pubs : List Pub) : Except String (List Pub) := do
  let keyed ← pubs.mapM (fun p =>
    match mergeSortKey p.year with
    | some k => Except.ok (k, p)
    | none => Except.error "ValueError: invalid literal for int() with base 10")
  Except.ok ((keyed.mergeSort (fun a c => decide (c.1 ≤ a.1))).map (fun kp => kp.2))

/-! ## Incremental deduplication (`IncrementalUpdater.find_new_publications`) -/

/-- Score of a new record (given by its normalized title `nTitleNorm` and
year string `nYear`) against an existing record `e`: base
`similarity_score(new, existing)`, multiplied by `0.7` when both year
strings are non-empty and differ (update_incremental.py lines 78-87). -/
def pairScore (nTitleNorm nYear : String) (e : Pub) : ℚ :=
  let score := similarity_score nTitleNorm (normalize_title (e.title.getD ""))
  if nYear ≠ "" ∧ pyStrYear e.year ≠ "" ∧ nYear ≠ pyStrYear e.year then
    (7/10) * score
  else score

inductive ScanOut where
  | dup (e : Pub) (s : ℚ)
  | noDup (best : Option (Pub × ℚ))
deriving DecidableEq

/-- The inner loop of `find_new_publications` over the existing collection:
track the best match so far (strict improvement, as `if score > best_score`),
and break with a Duplicate at the first score at or above the threshold. -/
def scanExisting (nTitleNorm nYear : String) (τ : ℚ) :
    List Pub → Option (Pub × ℚ) → ScanOut
  | [], best => ScanOut.noDup best
  | e :: rest, best =>
    let score := pairScore nTitleNorm nYear e
    let bestScore : ℚ := match best with | none => 0 | some bs => bs.2
    let best' := if bestScore < score then some (e, score) else best
    if τ ≤ score then ScanOut.dup e score
    else scanExisting nTitleNorm nYear τ rest best'

inductive DedupClass where
  | dup (e : Pub) (s : ℚ)
  | pot (e : Option Pub) (s : ℚ)
  | new
deriving DecidableEq

/-- Classification of one new record (the body of the outer loop of
`find_new_publications`, update_incremental.py lines 69-112): Duplicate
against the first existing record scoring at or above the threshold;
otherwise PotentialDuplicate against the best match when the best score
reaches the hard-coded `0.65`; otherwise TrulyNew.  (`pot`'s record is an
`Option` because the code stores `best_match`, initialised to `None`.) -/
def classify (existing : List Pub) (τ : ℚ) (n : Pub) : DedupClass :=
  let nTitleNorm := normalize_title (n.title.getD "")
  let nYear := pyStrYear n.year
  match scanExisting nTitleNorm nYear τ existing none with
  | ScanOut.dup e s => DedupClass.dup e s
  | ScanOut.noDup best =>
    let bestScore : ℚ := match best with | none => 0 | some bs => bs.2
    if 13/20 ≤ bestScore then
      DedupClass.pot (best.map (fun bs => bs.1)) bestScore
    else DedupClass.new

/-- `find_new_publications(similarity_threshold)`: classify each new record
against the (never-depleted) existing collection, appending to the
`duplicates`, `potential_duplicates` and `truly_new` lists in batch order. -/
def find_new_publications (existing newPubs : List Pub) (τ : ℚ) :
    List (Pub × Pub × ℚ) × List (Pub × Option Pub × ℚ) × List Pub :=
  newPubs.foldl
    (fun acc n =>
      match classify existing τ n with
      | DedupClass.dup e s => (acc.1 ++ [(n, e, s)], acc.2.1, acc.2.2)
      | DedupClass.pot e s => (acc.1, acc.2.1 ++ [(n, e, s)], acc.2.2)
      | DedupClass.new => (acc.1, acc.2.1, acc.2.2 ++ [n]))
    ([], [], [])

/-! ## One-shot comparator (`PublicationComparator.find_matches`) -/

/-- An entry of `self.cv_pubs` / `self.scholar_pubs` as `find_matches` reads
it: the precomputed `title_normalized` and the year string. -/
structure CmpPub where
  title_normalized : String
  year : String
deriving DecidableEq

/-- Pair score inside `find_matches` (compare_publications.py lines
149-158): similarity of the normalized titles, multiplied by `0.7` when both
year strings are non-empty and differ. -/
def cmpScore (cv sch : CmpPub) : ℚ :=
  let s := similarity_score cv.title_normalized sch.title_normalized
  if cv.year ≠ "" ∧ sch.year ≠ "" ∧ cv.year ≠ sch.year then (7/10) * s else s

/-- The inner loop of `find_matches` for one cv record: scan scholar indices
in order, skipping already-claimed ones, keeping the best score
(`best_score = 0`, `best_match_idx = -1` initially; strict improvement).
`none` stands for the Python `-1`. -/
def bestUnclaimed (cv : CmpPub) (B : List CmpPub) (claimed : List Nat) :
    ℚ × Option Nat :=
  (List.range B.length).foldl
    (fun acc j =>
      if j ∈ claimed then acc
      else if acc.1 < cmpScore cv (B.getD j ⟨"", ""⟩) then
        (cmpScore cv (B.getD j ⟨"", ""⟩), some j)
      else acc)
    (0, none)

structure FMState where
  matched : List (Nat × Option Nat × ℚ)
  potential : List (Nat × Option Nat × ℚ)
  claimedA : List Nat
  claimedB : List Nat
deriving DecidableEq

/-- One outer-loop step of `find_matches`, processing the cv record at index
`ip.1`: classify by the best unclaimed score (`≥ τh` matched, `≥ τl`
potential, below: no claim), claiming both indices on a match.  (Python adds
`best_match_idx` even when it is `-1`, which never collides with a real
index; the model simply adds nothing in that case.) -/
def fmStep (B : List CmpPub) (τh τl : ℚ) (st : FMState) (ip : Nat × CmpPub) :
    FMState :=
  let r := bestUnclaimed ip.2 B st.claimedB
  if τh ≤ r.1 then
    { st with matched := st.matched ++ [(ip.1, r.2, r.1)]
              claimedA := st.claimedA ++ [ip.1]
              claimedB := st.claimedB ++ r.2.toList }
  else if τl ≤ r.1 then
    { st with potential := st.potential ++ [(ip.1, r.2, r.1)]
              claimedA := st.claimedA ++ [ip.1]
              claimedB := st.claimedB ++ r.2.toList }
  else st

structure FMResult where
  matched : List (Nat × Option Nat × ℚ)
  potential : List (Nat × Option Nat × ℚ)
  only_in_cv : List Nat
  only_in_scholar : List Nat
deriving DecidableEq

/-- The tracking state after the main loop of `find_matches`. -/
def fmFinal (A B : List CmpPub) (τh τl : ℚ) : FMState :=
  A.enum.foldl (fmStep B τh τl) ⟨[], [], [], []⟩

/-- `find_matches(threshold, potential_threshold)` over indexed records
(compare_publications.py lines 128-192).  Entries are written as index
pairs; entry `(i, some j, s)` stands for the dict pair
`{'cv': cv_pubs[i], 'scholar': scholar_pubs[j], 'score': s}`; the
`only_in_*` lists hold the unclaimed indices, in index order, exactly as the
two trailing loops produce them. -/
def find_matches (A B : List CmpPub) (τh τl : ℚ) : FMResult :=
  { matched := (fmFinal A B τh τl).matched
    potential := (fmFinal A B τh τl).potential
    only_in_cv := (List.range A.length).filter
      (fun i => decide (i ∉ (fmFinal A B τh τl).claimedA))
    only_in_scholar := (List.range B.length).filter
      (fun j => decide (j ∉ (fmFinal A B τh τl).claimedB)) }

/-- `find_matches` at its default thresholds `threshold=0.85`,
`potential_threshold=0.65`. -/
def find_matches_default (A B : List CmpPub) : FMResult :=
  find_matches A B (17/20) (13/20)

/-! ## Merge, persistence and the confirmation gate (`merge_and_save`, `main`) -/

/-- The canonical store document as `merge_and_save` reads it: the fields
the merge touches, plus `extra` for every other top-level key of the JSON
dict, which `merged_data = self.existing_data.copy()` carries over
untouched.  `author_info = []` models a missing-or-empty (falsy) block. -/
structure StoreData where
  author_info : List (String × String) := []
  publications : List Pub := []
  last_updated : String := ""
  total_publications : Nat := 0
  extra : List (String × String) := []
deriving DecidableEq

/-- The in-memory merge of `merge_and_save` (update_incremental.py lines
129-144): start from a copy of the existing store; replace `author_info`
when the batch's block is truthy (non-empty); set `publications` to existing
+ truly-new re-sorted by year descending; set `last_updated := now` and
`total_publications := len(all_pubs)`.  Every other key comes from the copy
untouched. -/
def merge_data (existing : StoreData) (newAuthorInfo : List (String × String))
    (truly_new : List Pub) (now : String) : Except String StoreData := do
  let all_pubs := existing.publications ++ truly_new
  let sorted ← sortPubs all_pubs
  Except.ok
    { author_info := if newAuthorInfo ≠ [] then newAuthorInfo
        else existing.author_info
      publications := sorted
      last_updated := now
      total_publications := all_pubs.length
      extra := existing.extra }

/-- Persisted bytes of `output_path` after
`with open(output_path, 'w', ...) as f: json.dump(merged_data, f, ...)`
(update_incremental.py lines 146-149): `'w'` truncates the file, then the
serialized text is written front to back.  `failAt = some k` models an I/O
failure after `k` characters have reached the file; `none` a successful
write. -/
def writeStore (serialized : String) (failAt : Option Nat) : String :=
  match failAt with
  | none => serialized
  | some k => ⟨serialized.data.take k⟩

/-- The file-system effect of `merge_and_save`'s persistence steps: first the
optional `shutil.copy` backup of the prior store (when `backup` is on and
the store file exists — `prior = none` models a missing file), then the
truncate-and-write of the output file.  Result: (backup contents, output
file contents). -/
def merge_and_save_fs (prior : Option String) (backup : Bool)
    (serialized : String) (failAt : Option Nat) : Option String × String :=
  ((if backup then prior else none), writeStore serialized failAt)

/-- `input().strip().lower()` (update_incremental.py line 253). -/
def normResponse (s : String) : String :=
  ⟨(stripWs s.data).map Char.toLower⟩

/-- The confirmation gate of `main` (update_incremental.py lines 242-266):
whether `merge_and_save` is invoked, as a function of the deduplication
result lists and the operator's raw response.  With potential duplicates
present the prompt is `(y/N)` and only an exact (stripped, lowercased) `y`
merges; with none, but new records present, the prompt is `(Y/n)` and
anything except `n` merges; with nothing to add there is no prompt and no
merge. -/
def mainMergeDecision (truly_new : List Pub)
    (potential : List (Pub × Option Pub × ℚ)) (response : String) : Bool :=
  if ¬ truly_new.isEmpty ∨ ¬ potential.isEmpty then
    if ¬ potential.isEmpty then normResponse response == "y"
    else normResponse response != "n"
  else false

/-! ## Characterizing the deduplication scan -/

/-- `best_score`: the score carried by the running best match (`0` for
`None`). -/
def bscore : Option (Pub × ℚ) → ℚ
  | none => 0
  | some x => x.2

/-- The best-match tracking of the inner loop, in isolation. -/
def foldBest (tn yr : String) (E : List Pub) (best : Option (Pub × ℚ)) :
    Option (Pub × ℚ) :=
  E.foldl (fun acc e =>
    if bscore acc < pairScore tn yr e then some (e, pairScore tn yr e) else acc)
    best

theorem scanExisting_dup_first (tn yr : String) (τ : ℚ) :
    ∀ (E : List Pub) (best : Option (Pub × ℚ)) (e : Pub) (s : ℚ),
      scanExisting tn yr τ E best = ScanOut.dup e s →
      E.find? (fun x => decide (τ ≤ pairScore tn yr x)) = some e ∧
        s = pairScore tn yr e := by
  intro E
  induction E with
  | nil => intro best e s h; simp [scanExisting] at h
  | cons e0 rest ih =>
    intro best e s h
    simp only [scanExisting] at h
    by_cases hτ : τ ≤ pairScore tn yr e0
    · rw [if_pos hτ] at h
      injection h with h1 h2
      subst h1
      subst h2
      exact ⟨List.find?_cons_of_pos _ (by simpa using hτ), rfl⟩
    · rw [if_neg hτ] at h
      have hres := ih _ e s h
      rw [List.find?_cons_of_neg _ (by simpa using hτ)]
      exact hres

theorem scanExisting_noDup (tn yr : String) (τ : ℚ) :
    ∀ (E : List Pub) (best b : Option (Pub × ℚ)),
      scanExisting tn yr τ E best = ScanOut.noDup b →
      (∀ e ∈ E, pairScore tn yr e < τ) ∧ b = foldBest tn yr E best := by
  intro E
  induction E with
  | nil =>
    intro best b h
    simp only [scanExisting] at h
    injection h with h1
    subst h1
    exact ⟨by simp, rfl⟩
  | cons e0 rest ih =>
    intro best b h
    simp only [scanExisting] at h
    by_cases hτ : τ ≤ pairScore tn yr e0
    · rw [if_pos hτ] at h
      exact absurd h (by simp)
    · rw [if_neg hτ] at h
      have hres := ih _ b h
      refine ⟨?_, ?_⟩
      · intro e he
        rcases List.mem_cons.mp he with rfl | he
        · exact not_le.mp hτ
        · exact hres.1 e he
      · rw [hres.2]
        unfold foldBest
        rw [List.foldl_cons]
        rfl

theorem scanExisting_total (tn yr : String) (τ : ℚ) (E : List Pub)
    (best : Option (Pub × ℚ)) :
    (∃ e s, scanExisting tn yr τ E best = ScanOut.dup e s) ∨
      (∃ b, scanExisting tn yr τ E best = ScanOut.noDup b) := by
  cases h : scanExisting tn yr τ E best with
  | dup e s => exact Or.inl ⟨e, s, rfl⟩
  | noDup b => exact Or.inr ⟨b, rfl⟩

theorem bscore_foldBest (tn yr : String) :
    ∀ (E : List Pub) (best : Option (Pub × ℚ)),
      bscore (foldBest tn yr E best) =
        (E.map (pairScore tn yr)).foldl max (bscore best) := by
  intro E
  induction E with
  | nil => intro best; rfl
  | cons e0 rest ih =>
    intro best
    unfold foldBest
    rw [List.foldl_cons, List.map_cons, List.foldl_cons]
    by_cases hlt : bscore best < pairScore tn yr e0
    · rw [if_pos hlt]
      have hih := ih (some (e0, pairScore tn yr e0))
      unfold foldBest at hih
      have hred : bscore (some (e0, pairScore tn yr e0)) = pairScore tn yr e0 := rfl
      rw [hred] at hih
      rw [hih]
      have hmax : max (bscore best) (pairScore tn yr e0) = pairScore tn yr e0 :=
        max_eq_right (le_of_lt hlt)
      rw [hmax]
    · rw [if_neg hlt]
      have hih := ih best
      unfold foldBest at hih
      rw [hih]
      have hmax : max (bscore best) (pairScore tn yr e0) = bscore best :=
        max_eq_left (not_lt.mp hlt)
      rw [hmax]

theorem foldBest_mem (tn yr : String) :
    ∀ (E : List Pub) (best : Option (Pub × ℚ)) (e : Pub) (s : ℚ),
      foldBest tn yr E best = some (e, s) →
      best = some (e, s) ∨ (e ∈ E ∧ s = pairScore tn yr e) := by
  intro E
  induction E with
  | nil => intro best e s h; exact Or.inl h
  | cons e0 rest ih =>
    intro best e s h
    unfold foldBest at h
    rw [List.foldl_cons] at h
    by_cases hlt : bscore best < pairScore tn yr e0
    · rw [if_pos hlt] at h
      rcases ih _ e s h with h | h
      · injection h with h1
        cases h1
        exact Or.inr ⟨List.mem_cons_self _ _, rfl⟩
      · exact Or.inr ⟨List.mem_cons_of_mem _ h.1, h.2⟩
    · rw [if_neg hlt] at h
      rcases ih _ e s h with h | h
      · exact Or.inl h
      · exact Or.inr ⟨List.mem_cons_of_mem _ h.1, h.2⟩

theorem le_foldl_max (l : List ℚ) :
    ∀ (acc : ℚ), acc ≤ l.foldl max acc ∧ ∀ x ∈ l, x ≤ l.foldl max acc := by
  induction l with
  | nil => intro acc; exact ⟨le_rfl, by simp⟩
  | cons y rest ih =>
    intro acc
    rw [List.foldl_cons]
    have hr := ih (max acc y)
    refine ⟨le_trans (le_max_left _ _) hr.1, ?_⟩
    intro x hx
    rcases List.mem_cons.mp hx with rfl | hx
    · exact le_trans (le_max_right _ _) hr.1
    · exact hr.2 x hx

/-! ## The dedup driver in terms of per-record classification -/

theorem find_new_foldl_aux (existing : List Pub) (τ : ℚ) :
    ∀ (N : List Pub)
      (acc : List (Pub × Pub × ℚ) × List (Pub × Option Pub × ℚ) × List Pub),
      N.foldl
        (fun acc n =>
          match classify existing τ n with
          | DedupClass.dup e s => (acc.1 ++ [(n, e, s)], acc.2.1, acc.2.2)
          | DedupClass.pot e s => (acc.1, acc.2.1 ++ [(n, e, s)], acc.2.2)
          | DedupClass.new => (acc.1, acc.2.1, acc.2.2 ++ [n])) acc =
      (acc.1 ++ N.filterMap (fun n =>
          match classify existing τ n with
          | DedupClass.dup e s => some (n, e, s)
          | _ => none),
       acc.2.1 ++ N.filterMap (fun n =>
          match classify existing τ n with
          | DedupClass.pot e s => some (n, e, s)
          | _ => none),
       acc.2.2 ++ N.filter (fun n => decide (classify existing τ n = DedupClass.new))) := by
  intro N
  induction N with
  | nil => intro acc; simp
  | cons n N ih =>
    intro acc
    rw [List.foldl_cons, ih, List.filterMap_cons, List.filterMap_cons,
      List.filter_cons]
    cases hc : classify existing τ n with
    | dup e s => simp [hc]
    | pot e s => simp [hc]
    | new => simp [hc]

/-- `find_new_publications` decomposed: each result list collects, in batch
order, the new records of the corresponding classification, every record
classified independently against the same (never-depleted) existing
collection. -/
theorem find_new_publications_eq (existing : List Pub) (τ : ℚ) (N : List Pub) :
    find_new_publications existing N τ =
      (N.filterMap (fun n =>
          match classify existing τ n with
          | DedupClass.dup e s => some (n, e, s)
          | _ => none),
       N.filterMap (fun n =>
          match classify existing τ n with
          | DedupClass.pot e s => some (n, e, s)
          | _ => none),
       N.filter (fun n => decide (classify existing τ n = DedupClass.new))) := by
  unfold find_new_publications
  rw [find_new_foldl_aux existing τ N ([], [], [])]
  simp

/-! ## Partition property of the comparator -/

theorem bestUnclaimed_spec (cv : CmpPub) (B : List CmpPub) (claimed : List Nat) :
    ((bestUnclaimed cv B claimed).2 = none → (bestUnclaimed cv B claimed).1 = 0) ∧
    (∀ j, (bestUnclaimed cv B claimed).2 = some j →
      j < B.length ∧ j ∉ claimed) := by
  unfold bestUnclaimed
  suffices h : ∀ (js : List Nat) (acc : ℚ × Option Nat),
      (acc.2 = none → acc.1 = 0) →
      (∀ j', acc.2 = some j' → j' < B.length ∧ j' ∉ claimed) →
      (∀ j' ∈ js, j' < B.length) →
      ((js.foldl
        (fun acc j =>
          if j ∈ claimed then acc
          else if acc.1 < cmpScore cv (B.getD j ⟨"", ""⟩) then
            (cmpScore cv (B.getD j ⟨"", ""⟩), some j)
          else acc) acc).2 = none →
        (js.foldl
        (fun acc j =>
          if j ∈ claimed then acc
          else if acc.1 < cmpScore cv (B.getD j ⟨"", ""⟩) then
            (cmpScore cv (B.getD j ⟨"", ""⟩), some j)
          else acc) acc).1 = 0) ∧
      (∀ j, (js.foldl
        (fun acc j =>
          if j ∈ claimed then acc
          else if acc.1 < cmpScore cv (B.getD j ⟨"", ""⟩) then
            (cmpScore cv (B.getD j ⟨"", ""⟩), some j)
          else acc) acc).2 = some j → j < B.length ∧ j ∉ claimed) by
    exact h (List.range B.length) (0, none) (fun _ => rfl) (by simp)
      (fun j' hj' => List.mem_range.mp hj')
  intro js
  induction js with
  | nil =>
    intro acc h0 hs _
    exact ⟨h0, hs⟩
  | cons j0 js ih =>
    intro acc h0 hs hmem
    rw [List.foldl_cons]
    by_cases hcl : j0 ∈ claimed
    · rw [if_pos hcl]
      exact ih acc h0 hs (fun j' hj' => hmem j' (List.mem_cons_of_mem _ hj'))
    · rw [if_neg hcl]
      by_cases hlt : acc.1 < cmpScore cv (B.getD j0 ⟨"", ""⟩)
      · rw [if_pos hlt]
        refine ih _ (by intro hcon; exact absurd hcon (by simp)) ?_
          (fun j' hj' => hmem j' (List.mem_cons_of_mem _ hj'))
        intro j' hj'
        injection hj' with hj'
        subst hj'
        exact ⟨hmem j0 (List.mem_cons_self _ _), hcl⟩
      · rw [if_neg hlt]
        exact ih acc h0 hs (fun j' hj' => hmem j' (List.mem_cons_of_mem _ hj'))

/-- Loop invariant of `find_matches`: each cv index claimed so far appears in
exactly one entry of `matched ++ potential` (and in none otherwise), claimed
cv indices are below the next index `t`, and likewise each claimed scholar
index appears in exactly one entry. -/
def fmInv (t : Nat) (st : FMState) : Prop :=
  (∀ i : Nat, st.matched.countP (fun e => decide (e.1 = i)) +
      st.potential.countP (fun e => decide (e.1 = i)) =
      if i ∈ st.claimedA then 1 else 0) ∧
  (∀ i ∈ st.claimedA, i < t) ∧
  (∀ j : Nat, st.matched.countP (fun e => decide (e.2.1 = some j)) +
      st.potential.countP (fun e => decide (e.2.1 = some j)) =
      if j ∈ st.claimedB then 1 else 0)

theorem count_claim_update (x : Nat) (cl : List Nat) (hx : x ∉ cl) (i : Nat) :
    ((if i ∈ cl then 1 else 0) + (if x = i then 1 else 0) : Nat) =
      if i ∈ cl ++ [x] then 1 else 0 := by
  by_cases hix : x = i
  · subst hix
    simp [hx]
  · have hxi : ¬ i = x := fun hcon => hix hcon.symm
    by_cases hic : i ∈ cl <;> simp [hic, hix, hxi, List.mem_append]

theorem fmStep_inv (B : List CmpPub) (τh τl : ℚ) (hτh : 0 < τh) (hτl : 0 < τl)
    (t : Nat) (a : CmpPub) (st : FMState) (h : fmInv t st) :
    fmInv (t + 1) (fmStep B τh τl st (t, a)) := by
  obtain ⟨hA, hT, hB⟩ := h
  have hbu := bestUnclaimed_spec a B st.claimedB
  have hnotinA : t ∉ st.claimedA := fun hc => lt_irrefl t (hT t hc)
  simp only [fmStep]
  by_cases hm : τh ≤ (bestUnclaimed a B st.claimedB).1
  · rw [if_pos hm]
    obtain ⟨j, hj⟩ : ∃ j, (bestUnclaimed a B st.claimedB).2 = some j := by
      cases hr2 : (bestUnclaimed a B st.claimedB).2 with
      | none => exact absurd (hbu.1 hr2 ▸ hm) (not_le.mpr hτh)
      | some j => exact ⟨j, rfl⟩
    obtain ⟨hjB, hjcl⟩ := hbu.2 j hj
    refine ⟨?_, ?_, ?_⟩
    · intro i
      have hupd := count_claim_update t st.claimedA hnotinA i
      have hAi := hA i
      simp only [List.countP_append, List.countP_cons, List.countP_nil,
        decide_eq_true_eq]
      split_ifs at hupd hAi ⊢ <;> omega
    · intro i hi
      have hi2 : i ∈ st.claimedA ∨ i = t := by simpa using hi
      rcases hi2 with hi2 | hi2
      · exact Nat.lt_succ_of_lt (hT i hi2)
      · omega
    · intro j'
      have hupd := count_claim_update j st.claimedB hjcl j'
      have hBj := hB j'
      simp only [List.countP_append, List.countP_cons, List.countP_nil,
        decide_eq_true_eq, hj, Option.toList_some, Option.some.injEq]
      split_ifs at hupd hBj ⊢ <;> omega
  · rw [if_neg hm]
    by_cases hp : τl ≤ (bestUnclaimed a B st.claimedB).1
    · rw [if_pos hp]
      obtain ⟨j, hj⟩ : ∃ j, (bestUnclaimed a B st.claimedB).2 = some j := by
        cases hr2 : (bestUnclaimed a B st.claimedB).2 with
        | none => exact absurd (hbu.1 hr2 ▸ hp) (not_le.mpr hτl)
        | some j => exact ⟨j, rfl⟩
      obtain ⟨hjB, hjcl⟩ := hbu.2 j hj
      refine ⟨?_, ?_, ?_⟩
      · intro i
        have hupd := count_claim_update t st.claimedA hnotinA i
        have hAi := hA i
        simp only [List.countP_append, List.countP_cons, List.countP_nil,
          decide_eq_true_eq]
        split_ifs at hupd hAi ⊢ <;> omega
      · intro i hi
        have hi2 : i ∈ st.claimedA ∨ i = t := by simpa using hi
        rcases hi2 with hi2 | hi2
        · exact Nat.lt_succ_of_lt (hT i hi2)
        · omega
      · intro j'
        have hupd := count_claim_update j st.claimedB hjcl j'
        have hBj := hB j'
        simp only [List.countP_append, List.countP_cons, List.countP_nil,
          decide_eq_true_eq, hj, Option.toList_some, Option.some.injEq]
        split_ifs at hupd hBj ⊢ <;> omega
    · rw [if_neg hp]
      exact ⟨hA, fun i hi => Nat.lt_succ_of_lt (hT i hi), hB⟩

theorem fmFold_inv (B : List CmpPub) (τh τl : ℚ) (hτh : 0 < τh) (hτl : 0 < τl) :
    ∀ (rest : List CmpPub) (t : Nat) (st : FMState), fmInv t st →
      fmInv (t + rest.length) ((rest.enumFrom t).foldl (fmStep B τh τl) st) := by
  intro rest
  induction rest with
  | nil => intro t st h; simpa using h
  | cons a rest ih =>
    intro t st h
    have h1 := fmStep_inv B τh τl hτh hτl t a st h
    have h2 := ih (t + 1) (fmStep B τh τl st (t, a)) h1
    have hlen : t + (a :: rest).length = t + 1 + rest.length := by
      simp [List.length_cons]
      omega
    rw [hlen]
    show fmInv (t + 1 + rest.length)
      ((rest.enumFrom (t + 1)).foldl (fmStep B τh τl) (fmStep B τh τl st (t, a)))
    exact h2

theorem fmFinal_inv (A B : List CmpPub) (τh τl : ℚ) (hτh : 0 < τh)
    (hτl : 0 < τl) : fmInv A.length (fmFinal A B τh τl) := by
  have h0 : fmInv 0 ⟨[], [], [], []⟩ :=
    ⟨fun i => by simp, fun i hi => by simp at hi, fun j => by simp⟩
  have h1 := fmFold_inv B τh τl hτh hτl A 0 ⟨[], [], [], []⟩ h0
  rw [Nat.zero_add] at h1
  exact h1

theorem count_filter_range (n : Nat) (cl : List Nat) (i : Nat) (hi : i < n) :
    ((List.range n).filter (fun x => decide (x ∉ cl))).count i =
      if i ∈ cl then 0 else 1 := by
  by_cases hmem : i ∈ cl
  · rw [if_pos hmem, List.count_eq_zero]
    simp [List.mem_filter, hmem]
  · rw [if_neg hmem]
    apply List.count_eq_one_of_mem
    · exact (List.nodup_range n).filter _
    · simp [List.mem_filter, List.mem_range, hi, hmem]

/-! ## The re-sort of `merge_and_save` -/

/-- The sort-key computation applied to one record inside `sortPubs`:
`int(x.get('year', 0) or 0)`, which either produces an integer key or
raises `ValueError`. -/
def keyOf (p : Pub) : Except String (Int × Pub) :=
  match mergeSortKey p.year with
  | some k => Except.ok (k, p)
  | none => Except.error "ValueError: invalid literal for int() with base 10"

theorem sortPubs_eq (pubs : List Pub) :
    sortPubs pubs = (pubs.mapM keyOf).bind (fun keyed =>
      Except.ok ((keyed.mergeSort (fun a c => decide (c.1 ≤ a.1))).map
        (fun kp => kp.2))) := rfl

theorem mapM_keyOf_ok (pubs : List Pub)
    (h : ∀ p ∈ pubs, (mergeSortKey p.year).isSome = true) :
    ∃ keyed, pubs.mapM keyOf = Except.ok keyed ∧
      keyed.map Prod.snd = pubs ∧
      ∀ kp ∈ keyed, mergeSortKey kp.2.year = some kp.1 := by
  induction pubs with
  | nil => exact ⟨[], rfl, rfl, by simp⟩
  | cons p ps ih =>
    obtain ⟨k, hk⟩ := Option.isSome_iff_exists.mp (h p (List.mem_cons_self _ _))
    obtain ⟨keyed, hok, hmap, hkeys⟩ :=
      ih (fun q hq => h q (List.mem_cons_of_mem _ hq))
    refine ⟨(k, p) :: keyed, ?_, ?_, ?_⟩
    · rw [List.mapM_cons, hok]
      simp [keyOf, hk]
      rfl
    · rw [List.map_cons, hmap]
    · intro kp hkp
      rcases List.mem_cons.mp hkp with rfl | hkp
      · exact hk
      · exact hkeys kp hkp

theorem mapM_keyOf_error (pubs : List Pub) (p : Pub) (hp : p ∈ pubs)
    (h : mergeSortKey p.year = none) :
    ∃ msg, pubs.mapM keyOf = Except.error msg := by
  induction pubs with
  | nil => simp at hp
  | cons q ps ih =>
    rcases List.mem_cons.mp hp with rfl | hp
    · refine ⟨"ValueError: invalid literal for int() with base 10", ?_⟩
      rw [List.mapM_cons]
      simp [keyOf, h]
      rfl
    · cases hq : keyOf q with
      | error msg =>
        refine ⟨msg, ?_⟩
        rw [List.mapM_cons, hq]
        rfl
      | ok kq =>
        obtain ⟨msg, hmsg⟩ := ih hp
        refine ⟨msg, ?_⟩
        rw [List.mapM_cons, hq, hmsg]
        rfl

/-- When every year key is computable, the re-sort succeeds and returns a
permutation of its input that is sorted by year key, descending. -/
theorem sortPubs_ok (pubs : List Pub)
    (h : ∀ p ∈ pubs, (mergeSortKey p.year).isSome = true) :
    ∃ l, sortPubs pubs = Except.ok l ∧ l.Perm pubs ∧
      l.Pairwise (fun p q =>
        (mergeSortKey q.year).getD 0 ≤ (mergeSortKey p.year).getD 0) := by
  obtain ⟨keyed, hok, hmap, hkeys⟩ := mapM_keyOf_ok pubs h
  have hsorted := @List.sorted_mergeSort (Int × Pub)
    (fun a c => decide (c.1 ≤ a.1))
    (fun a b c hab hbc => by
      simp only [decide_eq_true_eq] at *
      omega)
    (fun a b => by
      simp only [decide_eq_true_eq, Bool.or_eq_true]
      omega)
    keyed
  have hperm := List.mergeSort_perm keyed (fun a c => decide (c.1 ≤ a.1))
  refine ⟨(keyed.mergeSort (fun a c => decide (c.1 ≤ a.1))).map (fun kp => kp.2),
    ?_, ?_, ?_⟩
  · rw [sortPubs_eq, hok]
    rfl
  · rw [← hmap]
    exact (hperm.map Prod.snd)
  · have hmem : ∀ kp ∈ keyed.mergeSort (fun a c => decide (c.1 ≤ a.1)),
        mergeSortKey kp.2.year = some kp.1 :=
      fun kp hkp => hkeys kp (hperm.mem_iff.mp hkp)
    rw [List.pairwise_map]
    refine List.Pairwise.imp_of_mem ?_ hsorted
    intro x y hx hy hxy
    simp only [decide_eq_true_eq] at hxy
    rw [hmem x hx, hmem y hy]
    simpa using hxy

/-- A record whose year key raises makes the whole re-sort raise. -/
theorem sortPubs_error (pubs : List Pub) (p : Pub) (hp : p ∈ pubs)
    (h : mergeSortKey p.year = none) :
    ∃ msg, sortPubs pubs = Except.error msg := by
  obtain ⟨msg, hmsg⟩ := mapM_keyOf_error pubs p hp h
  refine ⟨msg, ?_⟩
  rw [sortPubs_eq, hmsg]
  rfl

/-! ## The claims -/

attribute [local semireducible] collapseWs wordsOf runLen extendL extendR matchTotal

/-- C1 (amended): the persistence of `merge_and_save` is a plain
truncate-and-write, not an atomic replace.  What holds: a successful write
replaces the store with the full serialized merge; a failure after `k`
characters leaves exactly the first `k` characters of the new serialization
in the store; the prior bytes survive only in the optional backup copy made
beforehand (and in nothing when `backup` is off). -/
theorem merge_and_save_write_effects :
    (∀ (prior : Option String) (backup : Bool) (serialized : String),
      (merge_and_save_fs prior backup serialized none).2 = serialized) ∧
    (∀ (prior : Option String) (backup : Bool) (serialized : String) (k : Nat),
      (merge_and_save_fs prior backup serialized (some k)).2 =
        ⟨serialized.data.take k⟩) ∧
    (∀ (prior : Option String) (serialized : String) (failAt : Option Nat),
      (merge_and_save_fs prior true serialized failAt).1 = prior) ∧
    (∀ (prior : Option String) (serialized : String) (failAt : Option Nat),
      (merge_and_save_fs prior false serialized failAt).1 = none) :=
  ⟨fun _ _ _ => rfl, fun _ _ _ _ => rfl, fun _ _ _ => rfl, fun _ _ _ => rfl⟩

/-- C1, the claim as stated is false: with prior store `"old"`, serialized
merge `"new"` and a failure after one character, the persisted store holds
`"n"` — a partial write, neither the full new serialization nor the
untouched prior bytes. -/
theorem merge_and_save_not_atomic :
    ¬ (∀ (prior serialized : String) (failAt : Option Nat),
        (merge_and_save_fs (some prior) true serialized failAt).2 = serialized ∨
        (merge_and_save_fs (some prior) true serialized failAt).2 = prior) := by
  intro h
  rcases h "old" "new" (some 1) with h1 | h1 <;> exact absurd h1 (by decide)

/-- C2 (amended): the sort key `int(x.get('year', 0) or 0)` maps a missing
year, a `None` year and an empty-string year to the sentinel `0`, and when
every record's key is computable the year-descending re-sort succeeds with a
permutation of its input sorted by key descending; but a record whose year
is a non-empty unparsable string (such as `"n.d."`) makes `int()` raise
`ValueError`, so the re-sort raises instead of applying the sentinel. -/
theorem merge_sort_year_sentinel_and_error :
    (mergeSortKey YearVal.absent = some 0 ∧ mergeSortKey YearVal.null = some 0 ∧
      mergeSortKey (YearVal.str "") = some 0 ∧
      mergeSortKey (YearVal.str "n.d.") = none) ∧
    (∀ pubs : List Pub, (∀ p ∈ pubs, (mergeSortKey p.year).isSome = true) →
      ∃ l, sortPubs pubs = Except.ok l ∧ l.Perm pubs ∧
        l.Pairwise (fun p q =>
          (mergeSortKey q.year).getD 0 ≤ (mergeSortKey p.year).getD 0)) ∧
    (∀ (pubs : List Pub) (p : Pub), p ∈ pubs → mergeSortKey p.year = none →
      ∃ msg, sortPubs pubs = Except.error msg) :=
  ⟨⟨rfl, rfl, rfl, by decide⟩, sortPubs_ok, sortPubs_error⟩

/-- C2, the claim as stated is false: on the one-record batch
`[{'year': 'n.d.'}]` the re-sort raises `ValueError` rather than sorting the
record with year `0`. -/
theorem merge_sort_raises_on_unparsable_year :
    ¬ (∀ pubs : List Pub, ∃ l, sortPubs pubs = Except.ok l) := by
  intro h
  obtain ⟨l, hl⟩ := h [{ year := YearVal.str "n.d." }]
  rw [show sortPubs [{ year := YearVal.str "n.d." }] =
      Except.error "ValueError: invalid literal for int() with base 10" from rfl] at hl
  exact Except.noConfusion hl

/-- C2 at concrete inputs: a two-record store with a missing and a numeric
year re-sorts successfully, and a store holding a `"n.d."` year raises. -/
theorem merge_sort_year_witness :
    (∃ l, sortPubs [⟨some "b", YearVal.int 2001, []⟩,
        ⟨some "a", YearVal.absent, []⟩] = Except.ok l) ∧
    (∃ msg, sortPubs [⟨some "c", YearVal.str "n.d.", []⟩] =
        Except.error msg) := by
  constructor
  · obtain ⟨l, hl, -, -⟩ := merge_sort_year_sentinel_and_error.2.1
      [⟨some "b", YearVal.int 2001, []⟩, ⟨some "a", YearVal.absent, []⟩]
      (by decide)
    exact ⟨l, hl⟩
  · exact merge_sort_year_sentinel_and_error.2.2
      [⟨some "c", YearVal.str "n.d.", []⟩] ⟨some "c", YearVal.str "n.d.", []⟩
      (by decide) (by decide)

/-- C3 (confirmed): the confirmation gate of `main`.  With potential
duplicates present, merging happens exactly when the stripped, lowercased
response is `y`, and the default empty response cancels the merge; with no
potential duplicates but new records present, everything except an explicit
`n` merges, the empty default included; with nothing to add there is no
merge at all. -/
theorem main_confirmation_gate (truly_new : List Pub)
    (potential : List (Pub × Option Pub × ℚ)) (response : String) :
    (potential ≠ [] →
      ((mainMergeDecision truly_new potential response = true ↔
        normResponse response = "y") ∧
       mainMergeDecision truly_new potential "" = false)) ∧
    (potential = [] → truly_new ≠ [] →
      ((mainMergeDecision truly_new potential response = true ↔
        normResponse response ≠ "n") ∧
       mainMergeDecision truly_new potential "" = true)) ∧
    (potential = [] → truly_new = [] →
      mainMergeDecision truly_new potential response = false) := by
  refine ⟨?_, ?_, ?_⟩
  · intro hpot
    have hp : ¬ (potential.isEmpty = true) := by simp [hpot]
    constructor
    · simp only [mainMergeDecision, if_pos (Or.inr hp), if_pos hp]
      simp [String.ext_iff]
    · simp only [mainMergeDecision, if_pos (Or.inr hp), if_pos hp]
      decide
  · intro hpot htn
    subst hpot
    have ht : ¬ (truly_new.isEmpty = true) := by simp [htn]
    constructor
    · simp only [mainMergeDecision, if_pos (Or.inl ht),
        if_neg (show ¬ (¬ (List.isEmpty ([] : List (Pub × Option Pub × ℚ)) = true)) by
          simp)]
      simp [String.ext_iff]
    · simp only [mainMergeDecision, if_pos (Or.inl ht),
        if_neg (show ¬ (¬ (List.isEmpty ([] : List (Pub × Option Pub × ℚ)) = true)) by
          simp)]
      decide
  · intro hpot htn
    subst hpot; subst htn
    simp [mainMergeDecision]

/-- C3 at concrete inputs: with one potential duplicate, response `y` merges
and the empty default cancels; with only new records, the empty default
merges; with nothing, no merge. -/
theorem main_confirmation_gate_witness :
    mainMergeDecision [] [(⟨some "p", YearVal.absent, []⟩, none, 1)] "y" = true ∧
    mainMergeDecision [] [(⟨some "p", YearVal.absent, []⟩, none, 1)] "" = false ∧
    mainMergeDecision [⟨some "p", YearVal.absent, []⟩] [] "" = true ∧
    mainMergeDecision [] [] "maybe" = false := by
  refine ⟨?_, ?_, ?_, ?_⟩
  · exact ((main_confirmation_gate []
      [(⟨some "p", YearVal.absent, []⟩, none, 1)] "y").1 (by simp)).1.mpr (by decide)
  · exact ((main_confirmation_gate []
      [(⟨some "p", YearVal.absent, []⟩, none, 1)] "").1 (by simp)).2
  · exact ((main_confirmation_gate [⟨some "p", YearVal.absent, []⟩] [] "").2.1
      rfl (by simp)).2
  · exact (main_confirmation_gate [] [] "maybe").2.2 rfl rfl

/-- C4 (confirmed): at the default thresholds `0.85` / `0.65`,
`find_matches` partitions the two input collections — each cv index appears
in exactly one entry across `matched`, `potential_matches` and `only_in_cv`
(which also makes the three pairwise disjoint), and each scholar index in
exactly one entry across `matched`, `potential_matches` and
`only_in_scholar`. -/
theorem find_matches_partition (A B : List CmpPub) :
    (∀ i, i < A.length →
      (find_matches_default A B).matched.countP (fun e => decide (e.1 = i)) +
        (find_matches_default A B).potential.countP (fun e => decide (e.1 = i)) +
        (find_matches_default A B).only_in_cv.count i = 1) ∧
    (∀ j, j < B.length →
      (find_matches_default A B).matched.countP
          (fun e => decide (e.2.1 = some j)) +
        (find_matches_default A B).potential.countP
          (fun e => decide (e.2.1 = some j)) +
        (find_matches_default A B).only_in_scholar.count j = 1) := by
  obtain ⟨hA, hT, hB⟩ := fmFinal_inv A B (17/20) (13/20) (by norm_num) (by norm_num)
  constructor
  · intro i hi
    have h1 := hA i
    have h2 := count_filter_range A.length
      (fmFinal A B (17/20) (13/20)).claimedA i hi
    show (fmFinal A B (17/20) (13/20)).matched.countP (fun e => decide (e.1 = i)) +
      (fmFinal A B (17/20) (13/20)).potential.countP (fun e => decide (e.1 = i)) +
      ((List.range A.length).filter
        (fun x => decide (x ∉ (fmFinal A B (17/20) (13/20)).claimedA))).count i = 1
    split_ifs at h1 h2 <;> omega
  · intro j hj
    have h1 := hB j
    have h2 := count_filter_range B.length
      (fmFinal A B (17/20) (13/20)).claimedB j hj
    show (fmFinal A B (17/20) (13/20)).matched.countP
        (fun e => decide (e.2.1 = some j)) +
      (fmFinal A B (17/20) (13/20)).potential.countP
        (fun e => decide (e.2.1 = some j)) +
      ((List.range B.length).filter
        (fun x => decide (x ∉ (fmFinal A B (17/20) (13/20)).claimedB))).count j = 1
    split_ifs at h1 h2 <;> omega

/-- C4 at a concrete input: on one cv record and one scholar record each
index is covered exactly once across the three result collections. -/
theorem find_matches_partition_witness :
    (find_matches_default [⟨"a", "2001"⟩] [⟨"b", "2002"⟩]).matched.countP
        (fun e => decide (e.1 = 0)) +
      (find_matches_default [⟨"a", "2001"⟩] [⟨"b", "2002"⟩]).potential.countP
        (fun e => decide (e.1 = 0)) +
      (find_matches_default [⟨"a", "2001"⟩] [⟨"b", "2002"⟩]).only_in_cv.count 0 = 1 ∧
    (find_matches_default [⟨"a", "2001"⟩] [⟨"b", "2002"⟩]).matched.countP
        (fun e => decide (e.2.1 = some 0)) +
      (find_matches_default [⟨"a", "2001"⟩] [⟨"b", "2002"⟩]).potential.countP
        (fun e => decide (e.2.1 = some 0)) +
      (find_matches_default [⟨"a", "2001"⟩] [⟨"b", "2002"⟩]).only_in_scholar.count 0
        = 1 :=
  ⟨(find_matches_partition [⟨"a", "2001"⟩] [⟨"b", "2002"⟩]).1 0 (by decide),
   (find_matches_partition [⟨"a", "2001"⟩] [⟨"b", "2002"⟩]).2 0 (by decide)⟩

/-- C5 (confirmed): the classification of each new-batch record by
`find_new_publications`.  The driver classifies every record against the
same, never-depleted existing collection (so one existing record can be the
match target of many new records); a record is a Duplicate against the first
existing record (in enumeration order) whose score reaches the threshold,
with the scan breaking there; when no existing record reaches the threshold,
it is a PotentialDuplicate against the best-scoring existing record exactly
when the best score reaches the hard-coded `0.65`, and TrulyNew otherwise
(in which case every score is both below the threshold and below `0.65`). -/
theorem find_new_publications_classification (existing : List Pub) (τ : ℚ)
    (N : List Pub) :
    (find_new_publications existing N τ =
      (N.filterMap (fun n =>
          match classify existing τ n with
          | DedupClass.dup e s => some (n, e, s)
          | _ => none),
       N.filterMap (fun n =>
          match classify existing τ n with
          | DedupClass.pot e s => some (n, e, s)
          | _ => none),
       N.filter (fun n => decide (classify existing τ n = DedupClass.new)))) ∧
    (∀ n e s, classify existing τ n = DedupClass.dup e s →
      existing.find? (fun x => decide (τ ≤
        pairScore (normalize_title (n.title.getD "")) (pyStrYear n.year) x)) =
          some e ∧
      s = pairScore (normalize_title (n.title.getD "")) (pyStrYear n.year) e) ∧
    (∀ n e s, classify existing τ n = DedupClass.pot e s →
      (∀ x ∈ existing,
        pairScore (normalize_title (n.title.getD "")) (pyStrYear n.year) x < τ) ∧
      13/20 ≤ s ∧
      (∀ x ∈ existing,
        pairScore (normalize_title (n.title.getD "")) (pyStrYear n.year) x ≤ s) ∧
      ∃ e0, e = some e0 ∧ e0 ∈ existing ∧
        s = pairScore (normalize_title (n.title.getD "")) (pyStrYear n.year) e0) ∧
    (∀ n, classify existing τ n = DedupClass.new →
      ∀ x ∈ existing,
        pairScore (normalize_title (n.title.getD "")) (pyStrYear n.year) x < τ ∧
        pairScore (normalize_title (n.title.getD "")) (pyStrYear n.year) x
          < 13/20) := by
  refine ⟨find_new_publications_eq existing τ N, ?_, ?_, ?_⟩
  · intro n e s h
    cases hscan : scanExisting (normalize_title (n.title.getD ""))
        (pyStrYear n.year) τ existing none with
    | dup e' s' =>
      simp only [classify, hscan] at h
      injection h with h1 h2
      subst h1; subst h2
      exact scanExisting_dup_first _ _ τ existing none e' s' hscan
    | noDup b =>
      simp only [classify, hscan] at h
      split_ifs at h
  · intro n e s h
    cases hscan : scanExisting (normalize_title (n.title.getD ""))
        (pyStrYear n.year) τ existing none with
    | dup e' s' =>
      simp only [classify, hscan] at h
      exact DedupClass.noConfusion h
    | noDup b =>
      obtain ⟨hall, hfb⟩ := scanExisting_noDup _ _ τ existing none b hscan
      cases b with
      | none =>
        simp only [classify, hscan] at h
        split_ifs at h with hc
        exact absurd hc (by norm_num)
      | some bs =>
        obtain ⟨e0, s0⟩ := bs
        simp only [classify, hscan] at h
        split_ifs at h with hc
        injection h with h1 h2
        subst h2
        have hbs : s0 = (existing.map (pairScore
            (normalize_title (n.title.getD "")) (pyStrYear n.year))).foldl
            max 0 := by
          have hbf := bscore_foldBest (normalize_title (n.title.getD ""))
            (pyStrYear n.year) existing none
          rw [← hfb] at hbf
          exact hbf
        rcases foldBest_mem _ _ existing none e0 s0 hfb.symm
          with hcon | ⟨hmem, hval⟩
        · exact Option.noConfusion hcon
        · refine ⟨hall, hc, ?_, e0, ?_, hmem, hval⟩
          · intro x hx
            rw [hbs]
            exact (le_foldl_max _ 0).2 _ (List.mem_map_of_mem _ hx)
          · rw [← h1]
            rfl
  · intro n h
    cases hscan : scanExisting (normalize_title (n.title.getD ""))
        (pyStrYear n.year) τ existing none with
    | dup e' s' =>
      simp only [classify, hscan] at h
      exact DedupClass.noConfusion h
    | noDup b =>
      obtain ⟨hall, hfb⟩ := scanExisting_noDup _ _ τ existing none b hscan
      have hbs : bscore b =
          (existing.map (pairScore (normalize_title (n.title.getD ""))
            (pyStrYear n.year))).foldl max 0 := by
        rw [hfb]
        exact bscore_foldBest _ _ existing none
      intro x hx
      refine ⟨hall x hx, ?_⟩
      have hxle : pairScore (normalize_title (n.title.getD ""))
          (pyStrYear n.year) x ≤ bscore b := by
        rw [hbs]
        exact (le_foldl_max _ 0).2 _ (List.mem_map_of_mem _ hx)
      have hblt : bscore b < 13/20 := by
        cases hb : b with
        | none => norm_num [bscore]
        | some bs =>
          subst hb
          obtain ⟨e0, s0⟩ := bs
          simp only [classify, hscan] at h
          split_ifs at h with hc
          simpa [bscore] using not_le.mp hc
      exact lt_of_le_of_lt hxle hblt

/-- C5 at a concrete input: a new record with title `a` scanned against the
one-record existing collection holding the same title is a Duplicate against
that first record, at score `1`. -/
theorem find_new_publications_classification_witness :
    List.find? (fun x => decide ((17/20 : ℚ) ≤
        pairScore (normalize_title "a") "" x))
      [(⟨some "a", YearVal.absent, []⟩ : Pub)] =
      some ⟨some "a", YearVal.absent, []⟩ ∧
    (1 : ℚ) = pairScore (normalize_title "a") ""
      ⟨some "a", YearVal.absent, []⟩ := by
  have hps : pairScore (normalize_title "a") ""
      (⟨some "a", YearVal.absent, []⟩ : Pub) = 1 := by
    simp only [pairScore, Option.getD_some]
    rw [if_neg (by simp)]
    have hnt : normalize_title "a" = "a" := by decide
    rw [hnt]
    exact sequenceRatio_self "a".data
  have hcl : classify [(⟨some "a", YearVal.absent, []⟩ : Pub)] (17/20)
      (⟨some "a", YearVal.absent, []⟩ : Pub) =
      DedupClass.dup ⟨some "a", YearVal.absent, []⟩ 1 := by
    simp only [classify, scanExisting, Option.getD_some, pyStrYear, hps]
    norm_num
  have hres := (find_new_publications_classification
    [⟨some "a", YearVal.absent, []⟩] (17/20) []).2.1
    ⟨some "a", YearVal.absent, []⟩ ⟨some "a", YearVal.absent, []⟩ 1 hcl
  simpa only [Option.getD_some, pyStrYear] using hres

/-- C6 (amended): what holds of `similarity_score`: it is bounded in
`[0, 1]`, and on any non-empty string compared with itself it is exactly
`1`.  (Symmetry fails: `SequenceMatcher.ratio` is not symmetric in its
arguments.) -/
theorem similarity_score_bounds_and_identity :
    (∀ a b : String, 0 ≤ similarity_score a b ∧ similarity_score a b ≤ 1) ∧
    (∀ x : String, x ≠ "" → similarity_score x x = 1) :=
  ⟨fun a b => ⟨sequenceRatio_nonneg a.data b.data,
      sequenceRatio_le_one a.data b.data⟩,
   fun x _ => sequenceRatio_self x.data⟩

/-- C6, the claim as stated is false: `similarity_score` is not symmetric.
On `"aba"` against `"babba"` the ratio is `3/4`, but with the arguments
swapped it is `1/2`. -/
theorem similarity_score_not_symmetric :
    ¬ ((∀ a b : String, similarity_score a b = similarity_score b a ∧
        0 ≤ similarity_score a b ∧ similarity_score a b ≤ 1) ∧
       (∀ x : String, x ≠ "" → similarity_score x x = 1)) := by
  intro h
  have hsym := (h.1 "aba" "babba").1
  have h1 : similarity_score "aba" "babba" = 3/4 := by
    have hm : matchTotal "aba".data "babba".data (isPopular "babba".data)
        0 "aba".data.length 0 "babba".data.length = 3 := by decide
    simp only [similarity_score, sequenceRatio, hm]
    norm_num
  have h2 : similarity_score "babba" "aba" = 1/2 := by
    have hm : matchTotal "babba".data "aba".data (isPopular "aba".data)
        0 "babba".data.length 0 "aba".data.length = 2 := by decide
    simp only [similarity_score, sequenceRatio, hm]
    norm_num
  rw [h1, h2] at hsym
  norm_num at hsym

/-- C6 at concrete inputs: the score of `"aba"` against `"babba"` lies in
`[0, 1]`, and the non-empty string `"ab"` scores `1` against itself. -/
theorem similarity_score_bounds_identity_witness :
    (0 ≤ similarity_score "aba" "babba" ∧ similarity_score "aba" "babba" ≤ 1) ∧
    similarity_score "ab" "ab" = 1 :=
  ⟨similarity_score_bounds_and_identity.1 "aba" "babba",
   similarity_score_bounds_and_identity.2 "ab" (by decide)⟩

/-- C7 (amended): `normalize_title` equals the spec's pipeline — lowercase,
remove a fixed punctuation set, collapse whitespace runs to single spaces,
trim — for the punctuation set holding only the straight quotes: period,
comma, semicolon, colon, exclamation mark, question mark, `"` and `'`.
(The regex `[.,;:!?"\']` contains no curly quotes.) -/
theorem normalize_title_removes_straight_punctuation (t : String) :
    normalize_title t = specNormalize specPunctStraight t := by
  rw [normalize_title_words]
  simp only [specNormalize, pyPunct_eq_contains]

/-- C7, the claim as stated is false: with the claimed punctuation set that
includes the curly quotes, the pipeline differs from the code on
`"Don’t “Stop”"` — the code keeps the curly quotes. -/
theorem normalize_title_misses_curly_quotes :
    ¬ (∀ t, normalize_title t = specNormalize specPunctWithCurly t) := by
  intro h
  exact absurd (h "Don’t “Stop”") (by decide)

/-- C8 (confirmed): the year-mismatch penalty, in both scripts.  When both
year strings are non-empty and differ, the pair's score is exactly `0.7`
times the base title similarity; when either year is empty (or the years
agree) the base score is returned unchanged; the result stays in `[0, 1]`;
and for two records with the same title, a year mismatch strictly decreases
the score compared with the same pair without the mismatch. -/
theorem year_penalty_exact :
    (∀ cv sch : CmpPub, cv.year ≠ "" → sch.year ≠ "" → cv.year ≠ sch.year →
      cmpScore cv sch =
        7/10 * similarity_score cv.title_normalized sch.title_normalized) ∧
    (∀ cv sch : CmpPub, cv.year = "" ∨ sch.year = "" ∨ cv.year = sch.year →
      cmpScore cv sch =
        similarity_score cv.title_normalized sch.title_normalized) ∧
    (∀ cv sch : CmpPub, 0 ≤ cmpScore cv sch ∧ cmpScore cv sch ≤ 1) ∧
    (∀ t y y' : String, y ≠ "" → y' ≠ "" → y ≠ y' →
      cmpScore ⟨t, y⟩ ⟨t, y'⟩ < cmpScore ⟨t, y⟩ ⟨t, y⟩) ∧
    (∀ (tn yr : String) (e : Pub), yr ≠ "" → pyStrYear e.year ≠ "" →
      yr ≠ pyStrYear e.year →
      pairScore tn yr e =
        7/10 * similarity_score tn (normalize_title (e.title.getD ""))) ∧
    (∀ (tn yr : String) (e : Pub),
      yr = "" ∨ pyStrYear e.year = "" ∨ yr = pyStrYear e.year →
      pairScore tn yr e =
        similarity_score tn (normalize_title (e.title.getD ""))) ∧
    (∀ (tn yr : String) (e : Pub),
      0 ≤ pairScore tn yr e ∧ pairScore tn yr e ≤ 1) := by
  have hpen : ∀ cv sch : CmpPub, cv.year ≠ "" → sch.year ≠ "" →
      cv.year ≠ sch.year → cmpScore cv sch =
        7/10 * similarity_score cv.title_normalized sch.title_normalized := by
    intro cv sch h1 h2 h3
    simp only [cmpScore]
    rw [if_pos ⟨h1, h2, h3⟩]
  have hnopen : ∀ cv sch : CmpPub,
      cv.year = "" ∨ sch.year = "" ∨ cv.year = sch.year →
      cmpScore cv sch =
        similarity_score cv.title_normalized sch.title_normalized := by
    intro cv sch h
    simp only [cmpScore]
    rw [if_neg]
    rintro ⟨hc1, hc2, hc3⟩
    rcases h with h | h | h
    exacts [hc1 h, hc2 h, hc3 h]
  have hbounds : ∀ cv sch : CmpPub,
      0 ≤ cmpScore cv sch ∧ cmpScore cv sch ≤ 1 := by
    intro cv sch
    have h0 := sequenceRatio_nonneg cv.title_normalized.data
      sch.title_normalized.data
    have h1 := sequenceRatio_le_one cv.title_normalized.data
      sch.title_normalized.data
    simp only [cmpScore, similarity_score]
    split_ifs
    · constructor <;> nlinarith
    · exact ⟨h0, h1⟩
  have hpen2 : ∀ (tn yr : String) (e : Pub), yr ≠ "" → pyStrYear e.year ≠ "" →
      yr ≠ pyStrYear e.year → pairScore tn yr e =
        7/10 * similarity_score tn (normalize_title (e.title.getD "")) := by
    intro tn yr e h1 h2 h3
    simp only [pairScore]
    rw [if_pos ⟨h1, h2, h3⟩]
  have hnopen2 : ∀ (tn yr : String) (e : Pub),
      yr = "" ∨ pyStrYear e.year = "" ∨ yr = pyStrYear e.year →
      pairScore tn yr e =
        similarity_score tn (normalize_title (e.title.getD "")) := by
    intro tn yr e h
    simp only [pairScore]
    rw [if_neg]
    rintro ⟨hc1, hc2, hc3⟩
    rcases h with h | h | h
    exacts [hc1 h, hc2 h, hc3 h]
  have hbounds2 : ∀ (tn yr : String) (e : Pub),
      0 ≤ pairScore tn yr e ∧ pairScore tn yr e ≤ 1 := by
    intro tn yr e
    have h0 := sequenceRatio_nonneg tn.data
      (normalize_title (e.title.getD "")).data
    have h1 := sequenceRatio_le_one tn.data
      (normalize_title (e.title.getD "")).data
    simp only [pairScore, similarity_score]
    split_ifs
    · constructor <;> nlinarith
    · exact ⟨h0, h1⟩
  refine ⟨hpen, hnopen, hbounds, ?_, hpen2, hnopen2, hbounds2⟩
  intro t y y' hy hy' hne
  have hds : cmpScore ⟨t, y⟩ ⟨t, y'⟩ = 7/10 * similarity_score t t :=
    hpen ⟨t, y⟩ ⟨t, y'⟩ hy hy' hne
  have hsame : cmpScore ⟨t, y⟩ ⟨t, y⟩ = similarity_score t t :=
    hnopen ⟨t, y⟩ ⟨t, y⟩ (Or.inr (Or.inr rfl))
  rw [hds, hsame]
  have h1 : similarity_score t t = 1 := sequenceRatio_self t.data
  rw [h1]
  norm_num

/-- C8 at concrete inputs: identical titles `"x"` with years `2001` and
`2002` score `0.7` times the base, strictly below the same pair with equal
years. -/
theorem year_penalty_exact_witness :
    cmpScore ⟨"x", "2001"⟩ ⟨"x", "2002"⟩ = 7/10 * similarity_score "x" "x" ∧
    cmpScore ⟨"x", "2001"⟩ ⟨"x", "2002"⟩ < cmpScore ⟨"x", "2001"⟩ ⟨"x", "2001"⟩ :=
  ⟨year_penalty_exact.1 ⟨"x", "2001"⟩ ⟨"x", "2002"⟩ (by decide) (by decide)
      (by decide),
   year_penalty_exact.2.2.2.1 "x" "2001" "2002" (by decide) (by decide)
      (by decide)⟩

/-- C9 (confirmed): `normalize_title` is idempotent. -/
theorem normalize_title_idempotent (t : String) :
    normalize_title (normalize_title t) = normalize_title t :=
  normalize_title_idem t

attribute [local semireducible] List.mergeSort

/-- C10 (confirmed): the frame of `merge_and_save`'s in-memory merge.  When
the batch's `author_info` block is truthy (non-empty) it replaces the
store's block wholesale, and when it is falsy the store's block is kept;
`publications` becomes the re-sorted existing + truly-new sequence,
`last_updated` and `total_publications` are set; every other top-level key
of the store is carried over unchanged from the copy of the existing
data. -/
theorem merge_data_frame (existing : StoreData) (nai : List (String × String))
    (truly_new : List Pub) (now : String) (st : StoreData)
    (h : merge_data existing nai truly_new now = Except.ok st) :
    st.extra = existing.extra ∧
    (nai ≠ [] → st.author_info = nai) ∧
    (nai = [] → st.author_info = existing.author_info) ∧
    st.last_updated = now ∧
    st.total_publications = existing.publications.length + truly_new.length ∧
    ∃ l, sortPubs (existing.publications ++ truly_new) = Except.ok l ∧
      st.publications = l := by
  rw [show merge_data existing nai truly_new now =
      (sortPubs (existing.publications ++ truly_new)).bind (fun sorted =>
        Except.ok
          { author_info := if nai ≠ [] then nai else existing.author_info
            publications := sorted
            last_updated := now
            total_publications := (existing.publications ++ truly_new).length
            extra := existing.extra }) from rfl] at h
  cases hs : sortPubs (existing.publications ++ truly_new) with
  | error msg =>
    rw [hs] at h
    exact Except.noConfusion h
  | ok l =>
    rw [hs] at h
    injection h with h1
    subst h1
    refine ⟨rfl, ?_, ?_, rfl, by simp, l, rfl, rfl⟩
    · intro hne
      show (if nai ≠ [] then nai else existing.author_info) = nai
      rw [if_pos hne]
    · intro he
      show (if nai ≠ [] then nai else existing.author_info) =
        existing.author_info
      rw [if_neg (by simp [he])]

/-- C10 at a concrete input: merging a batch with a truthy `author_info`
into a store with an extra key keeps the extra key untouched and replaces
the author block. -/
theorem merge_data_frame_witness :
    ((⟨[("name", "y")], [], "now", 0, [("k", "v")]⟩ : StoreData).extra =
      (⟨[("name", "x")], [], "", 0, [("k", "v")]⟩ : StoreData).extra) ∧
    ((⟨[("name", "y")], [], "now", 0, [("k", "v")]⟩ : StoreData).author_info =
      [("name", "y")]) := by
  have h : merge_data ⟨[("name", "x")], [], "", 0, [("k", "v")]⟩
      [("name", "y")] [] "now" =
      Except.ok ⟨[("name", "y")], [], "now", 0, [("k", "v")]⟩ := rfl
  obtain ⟨he, hai, -, -, -, -⟩ :=
    merge_data_frame ⟨[("name", "x")], [], "", 0, [("k", "v")]⟩
      [("name", "y")] [] "now" ⟨[("name", "y")], [], "now", 0, [("k", "v")]⟩ h
  exact ⟨he, hai (by simp)⟩

end CV
